import Mathlib

/-!
Verification of the grocery-ai-api response-repair pipeline.

The definitions below shallowly embed the TypeScript sources:
`src/lib/free-ai-service.ts` and the four route handlers under
`src/app/api/ai/`.  JavaScript values flowing through the untyped
stages are modelled by `JsVal` (JSON values plus `undefined`), JSON.parse
by a fuel-indexed recursive-descent parser over character lists, and the
regex-based clean-up steps by explicit character scans.
-/

namespace GroceryAI

/-- A JavaScript value as it appears in the untyped (`any`) pipeline stages:
the JSON values plus `undefined`.  Numbers are modelled as rationals. -/
inductive JsVal where
  | undef : JsVal
  | vnull : JsVal
  | vbool : Bool → JsVal
  | vnum : ℚ → JsVal
  | vstr : String → JsVal
  | varr : List JsVal → JsVal
  | vobj : List (String × JsVal) → JsVal

/-- JSON whitespace characters (RFC 8259): space, tab, line feed, carriage return. -/
def jsonWs (c : Char) : Bool :=
  c = ' ' || c = '\t' || c = '\n' || c = '\r'

/-- Whitespace recognised by the JavaScript regex class `\s` (the ASCII part). -/
def reWs (c : Char) : Bool :=
  c = ' ' || c = '\t' || c = '\n' || c = '\r' || c = '\x0c' || c = '\x0b'

/-- Drop leading JSON whitespace. -/
def skipJsonWs : List Char → List Char
  | c :: cs => if jsonWs c then skipJsonWs cs else c :: cs
  | [] => []

/-- Decimal digit test used by the JSON number grammar. -/
def isDig (c : Char) : Bool := '0' ≤ c && c ≤ '9'

/-- Split off the longest run of leading decimal digits. -/
def digitSpan : List Char → List Char × List Char
  | c :: cs =>
    if isDig c then
      let (ds, r) := digitSpan cs
      (c :: ds, r)
    else ([], c :: cs)
  | [] => ([], [])

/-- Numeric value of a digit string. -/
def digitsNat (ds : List Char) : Nat :=
  ds.foldl (fun a c => a * 10 + (c.toNat - '0'.toNat)) 0

/-- Value of a hexadecimal digit, if the character is one (code-point
arithmetic: 48–57 digits, 97–102 lowercase, 65–70 uppercase). -/
def hexDig (c : Char) : Option Nat :=
  let n := c.toNat
  if 48 ≤ n ∧ n ≤ 57 then some (n - 48)
  else if 97 ≤ n ∧ n ≤ 102 then some (n - 87)
  else if 65 ≤ n ∧ n ≤ 70 then some (n - 55)
  else none

/-- Body of a JSON string literal after the opening quote: processes escape
sequences and stops at the closing quote, rejecting raw control characters. -/
def strBody : List Char → List Char → Option (String × List Char)
  | '"' :: r, acc => some (String.mk acc, r)
  | '\\' :: 'u' :: h1 :: h2 :: h3 :: h4 :: r, acc =>
    match hexDig h1, hexDig h2, hexDig h3, hexDig h4 with
    | some a, some b, some c, some d =>
      let n := ((a * 16 + b) * 16 + c) * 16 + d
      if h : n.isValidChar then strBody r (acc ++ [Char.ofNatAux n h])
      else strBody r (acc ++ [Char.ofNat n])
    | _, _, _, _ => none
  | '\\' :: e :: r, acc =>
    if e = '"' then strBody r (acc ++ ['"'])
    else if e = '\\' then strBody r (acc ++ ['\\'])
    else if e = '/' then strBody r (acc ++ ['/'])
    else if e = 'b' then strBody r (acc ++ ['\x08'])
    else if e = 'f' then strBody r (acc ++ ['\x0c'])
    else if e = 'n' then strBody r (acc ++ ['\n'])
    else if e = 'r' then strBody r (acc ++ ['\r'])
    else if e = 't' then strBody r (acc ++ ['\t'])
    else none
  | c :: r, acc =>
    if c.toNat < 0x20 then none else strBody r (acc ++ [c])
  | [], _ => none

/-- A JSON number literal: optional minus, integer part (no leading zeros),
optional fraction and exponent.  Returns its exact rational value. -/
def numLit (cs : List Char) : Option (ℚ × List Char) :=
  let (neg, cs1) :=
    match cs with
    | '-' :: r => (true, r)
    | _ => (false, cs)
  let (ints, cs2) := digitSpan cs1
  if ints = [] then none
  else if ints.length > 1 && ints.headI = '0' then none
  else
    let (fracs, cs3) :=
      match cs2 with
      | '.' :: r => digitSpan r
      | _ => ([], cs2)
    match cs2, fracs with
    | '.' :: _, [] => none
    | _, _ =>
      let (expPart, cs4) :=
        match cs3 with
        | 'e' :: '+' :: r => (some (false, digitSpan r), (digitSpan r).2)
        | 'e' :: '-' :: r => (some (true, digitSpan r), (digitSpan r).2)
        | 'e' :: r => (some (false, digitSpan r), (digitSpan r).2)
        | 'E' :: '+' :: r => (some (false, digitSpan r), (digitSpan r).2)
        | 'E' :: '-' :: r => (some (true, digitSpan r), (digitSpan r).2)
        | 'E' :: r => (some (false, digitSpan r), (digitSpan r).2)
        | _ => (none, cs3)
      match expPart with
      | some (_, ([], _)) => none
      | some (eneg, (eds, _)) =>
        let base : ℚ := (digitsNat ints : ℚ) + (digitsNat fracs : ℚ) / ((10 : ℚ) ^ fracs.length)
        let emag : ℤ := if eneg then -(digitsNat eds : ℤ) else (digitsNat eds : ℤ)
        let v := base * (10 : ℚ) ^ emag
        some ((if neg then -v else v), cs4)
      | none =>
        let base : ℚ := (digitsNat ints : ℚ) + (digitsNat fracs : ℚ) / ((10 : ℚ) ^ fracs.length)
        some ((if neg then -base else base), cs3)

mutual

/-- Recursive-descent JSON value parser; the fuel bounds recursion depth and
is chosen large enough by `jsonParse`. -/
def parseV : Nat → List Char → Option (JsVal × List Char)
  | 0, _ => none
  | f + 1, cs =>
    match skipJsonWs cs with
    | [] => none
    | 'n' :: 'u' :: 'l' :: 'l' :: r => some (.vnull, r)
    | 't' :: 'r' :: 'u' :: 'e' :: r => some (.vbool true, r)
    | 'f' :: 'a' :: 'l' :: 's' :: 'e' :: r => some (.vbool false, r)
    | '"' :: r =>
      match strBody r [] with
      | some (s, r1) => some (.vstr s, r1)
      | none => none
    | '[' :: r =>
      match skipJsonWs r with
      | ']' :: r1 => some (.varr [], r1)
      | r1 => parseItems f r1 []
    | '{' :: r =>
      match skipJsonWs r with
      | '}' :: r1 => some (.vobj [], r1)
      | r1 => parseFields f r1 []
    | other =>
      match numLit other with
      | some (q, r) => some (.vnum q, r)
      | none => none

/-- Comma-separated array elements up to the closing bracket. -/
def parseItems : Nat → List Char → List JsVal → Option (JsVal × List Char)
  | 0, _, _ => none
  | f + 1, cs, acc =>
    match parseV f cs with
    | none => none
    | some (v, r) =>
      match skipJsonWs r with
      | ',' :: r1 => parseItems f r1 (acc ++ [v])
      | ']' :: r1 => some (.varr (acc ++ [v]), r1)
      | _ => none

/-- Comma-separated object members up to the closing brace. -/
def parseFields : Nat → List Char → List (String × JsVal) → Option (JsVal × List Char)
  | 0, _, _ => none
  | f + 1, cs, acc =>
    match skipJsonWs cs with
    | '"' :: r =>
      match strBody r [] with
      | none => none
      | some (k, r1) =>
        match skipJsonWs r1 with
        | ':' :: r2 =>
          match parseV f r2 with
          | none => none
          | some (v, r3) =>
            match skipJsonWs r3 with
            | ',' :: r4 => parseFields f r4 (acc ++ [(k, v)])
            | '}' :: r4 => some (.vobj (acc ++ [(k, v)]), r4)
            | _ => none
        | _ => none
    | _ => none

end

/-- The model of `JSON.parse`: parse one value and require only whitespace
after it; `none` models the thrown `SyntaxError`. -/
def jsonParse (cs : List Char) : Option JsVal :=
  match parseV (2 * cs.length + 2) cs with
  | some (v, r) => if skipJsonWs r = [] then some v else none
  | none => none

/-- Test for a literal pattern at the head of the character stream. -/
def litAt (pat : String) (cs : List Char) : Bool :=
  pat.toList.isPrefixOf cs

/-- One global pass of `text.replace(/```json\n?|\n?```/g, '')`: at each
position the first alternative (the fence word with its optional greedy
newline) is tried before the second (an optional newline and a bare fence).
The fuel is the input length, which the scan never exceeds. -/
def stripFencesF : Nat → List Char → List Char
  | 0, cs => cs
  | f + 1, cs =>
    match cs with
    | [] => []
    | c :: rest =>
      if litAt "```json\n" cs then stripFencesF f (cs.drop 8)
      else if litAt "```json" cs then stripFencesF f (cs.drop 7)
      else if litAt "\n```" cs then stripFencesF f (cs.drop 4)
      else if litAt "```" cs then stripFencesF f (cs.drop 3)
      else c :: stripFencesF f rest

/-- Markdown code-fence removal as performed by every `parseAIResponse`. -/
def stripFences (cs : List Char) : List Char :=
  stripFencesF cs.length cs

/-- Whitespace characters removed by JavaScript `String.prototype.trim`
(the ASCII ones that occur in this pipeline). -/
def jsTrimWs (c : Char) : Bool :=
  c = ' ' || c = '\t' || c = '\n' || c = '\r' || c = '\x0c' || c = '\x0b'

/-- The model of `String.prototype.trim`. -/
def jsTrim (cs : List Char) : List Char :=
  ((cs.dropWhile jsTrimWs).reverse.dropWhile jsTrimWs).reverse

/-- The greedy object capture `cleanedText.match(/\{[\s\S]*\}/)`: the slice
from the first opening brace to the last closing brace, provided the
closing one comes later. -/
def braceSlice (cs : List Char) : Option (List Char) :=
  match cs.findIdx? (· = '{') with
  | none => none
  | some i =>
    let t := cs.drop i
    match t.reverse.findIdx? (· = '}') with
    | none => none
    | some k => some (t.take (t.length - k))

/-- The default object returned by the suggestion route when extraction
fails: `{ suggestions: [] }`. -/
def emptySuggestionsVal : JsVal :=
  .vobj [("suggestions", .varr [])]

/-- The extractor of `suggest-item-completions/route.ts`
(`parseAIResponse`): strip fences, trim, direct parse, then the greedy
brace slice; every failure is caught and turned into `{ suggestions: [] }`,
so the `Except` is always `ok`. -/
def parseAIResponseSugg (cs : List Char) : Except String JsVal :=
  let cleaned := jsTrim (stripFences cs)
  match jsonParse cleaned with
  | some v => .ok v
  | none =>
    match braceSlice cleaned with
    | some seg =>
      match jsonParse seg with
      | some v => .ok v
      | none => .ok emptySuggestionsVal
    | none => .ok emptySuggestionsVal

/-- The extractor of `get-store-products/route.ts` (`parseAIResponse`): the
same strategies, but the outer catch rethrows a fixed error instead of
returning a default, modelled by the `error` branch. -/
def parseAIResponseStore (cs : List Char) : Except String JsVal :=
  let cleaned := jsTrim (stripFences cs)
  match jsonParse cleaned with
  | some v => .ok v
  | none =>
    match braceSlice cleaned with
    | some seg =>
      match jsonParse seg with
      | some v => .ok v
      | none => .error "Invalid response format from AI"
    | none => .error "Invalid response format from AI"

/-- Lookahead `(?=\s*[}\]])`: after optional regex whitespace the next
character must be a closing brace or bracket. -/
def lookClose (cs : List Char) : Bool :=
  match cs.dropWhile reWs with
  | c :: _ => c = '}' || c = ']'
  | [] => false

/-- The lazy tail `[\s\S]*?\](?=\s*[}\]])` of the promotions capture: the
content up to the first closing bracket whose lookahead succeeds. -/
def lazyClose : List Char → Option (List Char)
  | [] => none
  | c :: rest =>
    if c = ']' && lookClose rest then some []
    else (lazyClose rest).map (c :: ·)

/-- One attempt of the promotions regex at the current position; returns the
full matched slice (`match[0]`). -/
def promoTry (cs : List Char) : Option (List Char) :=
  if litAt "\"promotions\"" cs then
    let r1 := cs.drop 12
    let w1 := r1.takeWhile reWs
    match r1.dropWhile reWs with
    | ':' :: r2 =>
      let w2 := r2.takeWhile reWs
      match r2.dropWhile reWs with
      | '[' :: r3 =>
        match lazyClose r3 with
        | some inner =>
          some ("\"promotions\"".toList ++ w1 ++ ':' :: w2 ++ '[' :: inner ++ [']'])
        | none => none
      | _ => none
    | _ => none
  else none

/-- The scan of `text.match(/"promotions"\s*:\s*\[[\s\S]*?\](?=\s*[}\]])/)`:
try the pattern at each successive start position. -/
def promoCapture : Nat → List Char → Option (List Char)
  | 0, _ => none
  | f + 1, cs =>
    match promoTry cs with
    | some m => some m
    | none =>
      match cs with
      | [] => none
      | _ :: rest => promoCapture f rest

/-- The default value returned by the promotions extractor when every
strategy fails: `{ promotions: [] }`. -/
def emptyPromotionsVal : JsVal :=
  .vobj [("promotions", .varr [])]

/-- The extractor of `get-current-promotions/route.ts` (`parseAIResponse`):
first the regional `"promotions"` array capture wrapped in braces, then the
fence-stripped direct parse; all failures are caught and become
`{ promotions: [] }`, so the function is total. -/
def parsePromos (cs : List Char) : JsVal :=
  let viaCapture : Option JsVal :=
    match promoCapture (cs.length + 1) cs with
    | some m => jsonParse ('{' :: m ++ ['}'])
    | none => none
  match viaCapture with
  | some v => v
  | none =>
    match jsonParse (jsTrim (stripFences cs)) with
    | some v => v
    | none => emptyPromotionsVal

/-! ### JavaScript value helpers -/

/-- JavaScript truthiness: `undefined`, `null`, `false`, `0` and the empty
string are falsy; every array and object is truthy. -/
def truthy : JsVal → Bool
  | .undef => false
  | .vnull => false
  | .vbool b => b
  | .vnum q => decide (q ≠ 0)
  | .vstr s => decide (s ≠ "")
  | .varr _ => true
  | .vobj _ => true

/-- The JavaScript `||` operator on values. -/
def jsOr (a b : JsVal) : JsVal :=
  if truthy a then a else b

/-- Non-throwing property access: objects look their key up (later duplicate
keys shadow earlier ones, as after `JSON.parse`), primitives yield
`undefined`. -/
def propD (v : JsVal) (k : String) : JsVal :=
  match v with
  | .vobj fs =>
    match fs.reverse.lookup k with
    | some x => x
    | none => .undef
  | _ => (.undef)

/-- Property access as JavaScript performs it: reading a property of `null`
or `undefined` throws a `TypeError`, modelled by the `error` branch. -/
def getProp (v : JsVal) (k : String) : Except Unit JsVal :=
  match v with
  | .undef => .error ()
  | .vnull => .error ()
  | _ => .ok (propD v k)

/-- ASCII model of `String.prototype.toLowerCase`. -/
def jsLower (s : String) : String :=
  String.mk (s.toList.map Char.toLower)

/-- Substring search on character lists, the model of `String.includes`. -/
def hasSub : List Char → List Char → Bool
  | hay, sub =>
    if sub.isPrefixOf hay then true
    else
      match hay with
      | [] => false
      | _ :: t => hasSub t sub

/-- The model of `hay.includes(sub)` on strings. -/
def sIncl (hay sub : String) : Bool :=
  hasSub hay.toList sub.toList

/-! ### Suggestion validation (`suggest-item-completions/route.ts`) -/

/-- Filter of `validateAndProcessSuggestions`: keep strings whose trim is
non-empty. -/
def keepSugg : JsVal → Bool
  | .vstr s => decide (jsTrim s.toList ≠ [])
  | _ => false

/-- Capitalisation step: trim, uppercase the first character, keep the
rest. -/
def capFirst (s : String) : String :=
  match jsTrim s.toList with
  | [] => ""
  | c :: r => String.mk (c.toUpper :: r)

/-- The map step of `validateAndProcessSuggestions` on an element that
passed `keepSugg` (which guarantees a string). -/
def capVal : JsVal → String
  | .vstr s => capFirst s
  | _ => ""

/-- The de-duplication filter
`array.filter((s, i, arr) => arr.indexOf(s) === i)`. -/
def jsDedup (l : List String) : List String :=
  (l.enum.filter fun p => l.indexOf p.2 = p.1).map (·.2)

/-- First-occurrence de-duplication stated independently of the code: keep
an element iff its value has not been seen before. -/
def nubFirstAux (seen : List String) : List String → List String
  | [] => []
  | x :: xs =>
    if x ∈ seen then nubFirstAux seen xs
    else x :: nubFirstAux (x :: seen) xs

/-- Specification-side first-occurrence de-duplication. -/
def nubFirst (l : List String) : List String :=
  nubFirstAux [] l

/-- The model of `validateAndProcessSuggestions`: non-array payloads give
the empty list; elements are filtered, trimmed and capitalised,
de-duplicated keeping first occurrences, then truncated to 8.  The `error`
branch models the `TypeError` thrown when the payload itself is `null` or
`undefined`. -/
def validateAndProcessSuggestions (result : JsVal) : Except Unit (List String) := do
  let s ← getProp result "suggestions"
  match s with
  | .varr items =>
    if truthy (.varr items) then
      .ok ((jsDedup ((items.filter keepSugg).map capVal)).take 8)
    else
      .ok []
  | _ => .ok []

/-! ### Product validation (`get-store-products/route.ts`) -/

/-- A coerced product record as built by `validateProducts`. -/
structure ProductRec where
  id : ℚ
  name : String
  price : String
  onSpecial : Bool
  originalPrice : JsVal
  image : String
  dataAiHint : String

/-- Filter of `validateProducts`: the element must be truthy with string
`name`, `price` and `dataAiHint` anchors. -/
def validProd (p : JsVal) : Bool :=
  truthy p &&
    (match propD p "name" with | .vstr _ => true | _ => false) &&
    (match propD p "price" with | .vstr _ => true | _ => false) &&
    (match propD p "dataAiHint" with | .vstr _ => true | _ => false)

/-- Coercion of one surviving product at position `i` of the filtered
sequence, mirroring the map in `validateProducts` (falsy strings fall back
to the synthesized defaults, `id` defaults to the 1-based position). -/
def coerceProd (i : Nat) (p : JsVal) : ProductRec where
  id :=
    match propD p "id" with
    | .vnum q => q
    | _ => ((i : ℚ) + 1)
  name :=
    match propD p "name" with
    | .vstr s => if s = "" then "Product " ++ toString (i + 1) else s
    | _ => "Product " ++ toString (i + 1)
  price :=
    match propD p "price" with
    | .vstr s => if s = "" then "R 0.00" else s
    | _ => "R 0.00"
  onSpecial := truthy (propD p "onSpecial")
  originalPrice := jsOr (propD p "originalPrice") .undef
  image := "placeholder"
  dataAiHint :=
    match propD p "dataAiHint" with
    | .vstr s => if s = "" then "grocery item" else s
    | _ => "grocery item"

/-- The model of `validateProducts`: non-arrays give the empty list, valid
elements are coerced in order and the first ten kept. -/
def validateProducts (v : JsVal) : List ProductRec :=
  match v with
  | .varr ps => ((ps.filter validProd).enum.map fun p => coerceProd p.1 p.2).take 10
  | _ => []

/-! ### Keyword image resolution (`get-current-promotions/route.ts`) -/

/-- A Pexels URL in the 400 by 300 format used by the promotions route. -/
def pexP (n : String) : String :=
  "https://images.pexels.com/photos/" ++ n ++ "/pexels-photo-" ++ n ++
    ".jpeg?auto=compress&cs=tinysrgb&w=400&h=300&fit=crop"

/-- The irregularly named cola image of the promotions route. -/
def colaP : String :=
  "https://images.pexels.com/photos/50593/coca-cola-cold-drink-soft-drink-coke-50593.jpeg?auto=compress&cs=tinysrgb&w=400&h=300&fit=crop"

/-- The irregularly named egg image of the promotions route. -/
def eggP : String :=
  "https://images.pexels.com/photos/162712/egg-white-food-protein-162712.jpeg?auto=compress&cs=tinysrgb&w=400&h=300&fit=crop"

/-- The `imageMap` object of `processPromotionsWithImages`, in source
(insertion) order. -/
def imageMap : List (String × String) :=
  [("corn flakes", pexP "2119758"), ("kellogg", pexP "2119758"),
   ("crunchy nut", pexP "2119758"), ("cereal", pexP "2119758"),
   ("breakfast", pexP "2119758"),
   ("ricoffy", pexP "312418"), ("coffee", pexP "312418"),
   ("nescafe", pexP "312418"),
   ("coca-cola", colaP), ("appletiser", pexP "1304548"),
   ("juice", pexP "1304548"), ("sparkling", pexP "1304548"),
   ("beverage", pexP "1304548"), ("sir fruit", pexP "1304548"),
   ("tastic", pexP "2098135"), ("rice", pexP "2098135"),
   ("long grain", pexP "2098135"), ("maize meal", pexP "2098135"),
   ("milk", pexP "248412"), ("yogurt", pexP "3734612"),
   ("greek yogurt", pexP "3734612"), ("parmalat", pexP "248412"),
   ("butter", pexP "3311336"), ("lancewood", pexP "3311336"),
   ("dairy", pexP "248412"),
   ("chicken", pexP "65175"), ("rainbow chicken", pexP "65175"),
   ("chicken breast", pexP "65175"), ("beef", pexP "65175"),
   ("sausages", pexP "65175"), ("eskort", pexP "65175"),
   ("meat", pexP "65175"),
   ("sunlight", pexP "545014"), ("dishwashing", pexP "545014"),
   ("liquid", pexP "545014"), ("detergent", pexP "545014"),
   ("omo", pexP "545014"), ("powder", pexP "545014"),
   ("cleaning", pexP "545014"), ("household", pexP "545014"),
   ("bread", pexP "1775043"), ("bakery", pexP "1775043"),
   ("biscuits", pexP "1775043"), ("tiger brands", pexP "1775043"),
   ("eggs", eggP),
   ("pantry", pexP "3962286"), ("canned", pexP "3962286"),
   ("grocery", pexP "3962286")]

/-- The value the comparator reads: `key[0].length`, the length of the
one-character string at index 0 (zero only for the impossible empty key). -/
def firstCharLen (s : String) : Nat :=
  match s.toList with
  | [] => 0
  | c :: _ => (String.mk [c]).length

/-- The comparator `([a], [b]) => b[0].length - a[0].length` passed to
`Array.prototype.sort`. -/
def entryCmp (a b : String × String) : Int :=
  (firstCharLen b.1 : Int) - (firstCharLen a.1 : Int)

/-- The ordering induced by a JavaScript comparator: `a` may stay before
`b` when the comparator is non-positive.  `Array.prototype.sort` is stable,
so it is modelled by insertion sort with this relation. -/
def entryRel (a b : String × String) : Prop :=
  entryCmp a b ≤ 0

instance : DecidableRel entryRel := fun a b => by
  unfold entryRel; infer_instance

/-- Keyword entries whose key occurs in the text, in table order (the
`filter(([key]) => text.includes(key))` step). -/
def kwMatches (table : List (String × String)) (text : String) : List (String × String) :=
  table.filter fun e => sIncl text e.1

/-- One matching tier: filter, sort with the comparator, take the head. -/
def tierPick (table : List (String × String)) (text : String) : Option String :=
  (((kwMatches table text).insertionSort entryRel).head?).map (·.2)

/-- The `specificKeywords` list guarding the category tier. -/
def specificKeywords : List String :=
  ["chicken", "milk", "yogurt", "butter", "coffee", "juice", "cereal",
   "rice", "detergent", "bread"]

/-- Splitting on runs of regex whitespace (`title.split(/\s+/)` restricted
to the non-empty fields, which is all the caller keeps after its length
filter). -/
def wordsAux : List Char → List Char → List String
  | [], cur => if cur = [] then [] else [String.mk cur]
  | c :: cs, cur =>
    if reWs c then
      if cur = [] then wordsAux cs [] else String.mk cur :: wordsAux cs []
    else wordsAux cs (cur ++ [c])

/-- The words of a string, as used by the word-fallback tier. -/
def wordsOf (s : String) : List String :=
  wordsAux s.toList []

/-- The generic grocery fallback URL of the promotions route. -/
def genericGroceryUrl : String := pexP "3962286"

/-- The layered image resolution of `processPromotionsWithImages`: title
substring tier, hint substring tier, guarded category substring tier, word
lookup tier, generic fallback.  All three inputs arrive lowercased. -/
def resolveImg (title hint cat : String) : String :=
  let searchText := jsLower (title ++ " " ++ hint ++ " " ++ cat)
  match tierPick imageMap title with
  | some u => u
  | none =>
    match (if hint ≠ "" then tierPick imageMap hint else none) with
    | some u => u
    | none =>
      let hasSpecific := specificKeywords.any fun k => sIncl searchText k
      match (if cat ≠ "" && !hasSpecific then tierPick imageMap cat else none) with
      | some u => u
      | none =>
        match ((wordsOf title).filter fun w => w.length > 3).findSome?
            (fun w => imageMap.lookup w) with
        | some u => u
        | none => genericGroceryUrl

/-! ### Promotion coercion (`get-current-promotions/route.ts`) -/

/-- The record built for each promotion by `processPromotionsWithImages`
(pass-through fields keep their JavaScript values). -/
structure PromoRec where
  img : String
  title : JsVal
  store : JsVal
  dataAiHint : JsVal
  category : JsVal
  discountPercent : JsVal
  savingsAmount : JsVal
  originalPrice : JsVal
  currentPrice : JsVal
  promotionType : JsVal
  validUntil : JsVal

/-- The expression `promotion.k?.toLowerCase() || ''`: `null` and
`undefined` short-circuit to the empty string, strings are lowercased, any
other value throws a `TypeError` (no `toLowerCase` method). -/
def lowerProp (p : JsVal) (k : String) : Except Unit String := do
  let v ← getProp p k
  match v with
  | .vstr s => .ok (jsLower s)
  | .undef => .ok ""
  | .vnull => .ok ""
  | _ => .error ()

/-- Coercion of one promotion at position `i`, mirroring the object
returned inside `processPromotionsWithImages`; `defExpiry` is the
`getDefaultExpiryDate()` string (today plus seven days). -/
def processPromotion (defExpiry : String) (i : Nat) (p : JsVal) :
    Except Unit PromoRec := do
  let title ← lowerProp p "title"
  let hint ← lowerProp p "dataAiHint"
  let cat ← lowerProp p "category"
  .ok
    { img := resolveImg title hint cat
      title := jsOr (propD p "title") (.vstr ("Special Offer " ++ toString (i + 1)))
      store := jsOr (propD p "store") (.vstr "Supermarket")
      dataAiHint := jsOr (propD p "dataAiHint") (.vstr cat)
      category := jsOr (propD p "category") (.vstr "General")
      discountPercent := jsOr (propD p "discountPercent") .undef
      savingsAmount := jsOr (propD p "savingsAmount") .undef
      originalPrice := jsOr (propD p "originalPrice") .undef
      currentPrice := jsOr (propD p "currentPrice") .undef
      promotionType := jsOr (propD p "promotionType") (.vstr "percentage_discount")
      validUntil := jsOr (propD p "validUntil") (.vstr defExpiry) }

/-- The whole `processPromotionsWithImages` map; a throw in any element
rejects the joined promise. -/
def processPromotionsWithImages (defExpiry : String) (promos : List JsVal) :
    Except Unit (List PromoRec) :=
  promos.enum.mapM fun p => processPromotion defExpiry p.1 p.2

/-! ### Product-image route (`generate-product-image/route.ts`) -/

/-- A Pexels URL in the square 400 by 400 format used by the image route. -/
def pexQ (n : String) : String :=
  "https://images.pexels.com/photos/" ++ n ++ "/pexels-photo-" ++ n ++
    ".jpeg?auto=compress&cs=tinysrgb&w=400&h=400&fit=crop"

/-- The square variant of the irregular cola image. -/
def colaQ : String :=
  "https://images.pexels.com/photos/50593/coca-cola-cold-drink-soft-drink-coke-50593.jpeg?auto=compress&cs=tinysrgb&w=400&h=400&fit=crop"

/-- The square variant of the irregular egg image. -/
def eggQ : String :=
  "https://images.pexels.com/photos/162712/egg-white-food-protein-162712.jpeg?auto=compress&cs=tinysrgb&w=400&h=400&fit=crop"

/-- The `productImageMap` of `getFallbackImage`, in source order. -/
def productImageMap : List (String × String) :=
  [("cereal", pexQ "2119758"), ("corn flakes", pexQ "2119758"),
   ("breakfast", pexQ "2119758"),
   ("coffee", pexQ "312418"), ("ricoffy", pexQ "312418"),
   ("juice", pexQ "1304548"), ("beverage", pexQ "1304548"),
   ("soda", colaQ), ("coca-cola", colaQ),
   ("milk", pexQ "248412"), ("yogurt", pexQ "3734612"),
   ("butter", pexQ "3311336"), ("dairy", pexQ "248412"),
   ("chicken", pexQ "65175"), ("meat", pexQ "65175"),
   ("beef", pexQ "65175"),
   ("rice", pexQ "2098135"), ("tastic", pexQ "2098135"),
   ("detergent", pexQ "545014"), ("sunlight", pexQ "545014"),
   ("dishwashing", pexQ "545014"), ("household", pexQ "545014"),
   ("cleaning", pexQ "545014"),
   ("bread", pexQ "1775043"), ("bakery", pexQ "1775043"),
   ("eggs", eggQ),
   ("pantry", pexQ "3962286"), ("canned", pexQ "3962286")]

/-- The model of `getFallbackImage`: first entry whose key occurs in the
lowercased hint, else the generic grocery image. -/
def getFallbackImage (hint : String) : String :=
  match productImageMap.find? (fun e => sIncl (jsLower hint) e.1) with
  | some e => e.2
  | none => pexQ "3962286"

/-- The hint normalisation of `generateProductImageFlow`: lowercase, then
each whitespace run becomes a single dash. -/
def dashRuns : Bool → List Char → List Char
  | _, [] => []
  | prevWs, c :: cs =>
    if reWs c then
      if prevWs then dashRuns true cs else '-' :: dashRuns true cs
    else c :: dashRuns false cs

/-- The memoisation key `input.dataAiHint.toLowerCase().replace(/\s+/g, '-')`. -/
def normalizeHint (s : String) : String :=
  String.mk (dashRuns false (jsLower s).toList)

/-- The in-memory image cache, an insert-only string map. -/
abbrev ImageCache := List (String × String)

/-- The model of `generateProductImageFlow`: on a cache hit return the
cached URL; otherwise consult the provider (an abstract outcome, since it
is network I/O), fall back to the keyword map on failure, and cache the
result under the normalised key. -/
def imageFlow (cache : ImageCache) (hint : String) (provider : Except Unit String) :
    String × ImageCache :=
  let key := normalizeHint hint
  match List.lookup key cache with
  | some url => (url, cache)
  | none =>
    match provider with
    | .ok url => (url, cache ++ [(key, url)])
    | .error _ =>
      let fb := getFallbackImage hint
      (fb, cache ++ [(key, fb)])

/-- A sequence of image requests run against the cache in order. -/
def runImageRequests (cache : ImageCache) : List (String × Except Unit String) → ImageCache
  | [] => cache
  | (h, pr) :: rest => runImageRequests (imageFlow cache h pr).2 rest

/-! ### Promotions cache (`get-current-promotions/route.ts`, GET) -/

/-- The module-level promotions cache: the cached list (if any) and the
timestamp of the last update. -/
structure PromoCache where
  cache : Option (List PromoRec)
  lastUpdate : Nat

/-- The cache time-to-live: twenty-four hours in milliseconds. -/
def cacheDuration : Nat := 24 * 60 * 60 * 1000

/-- Outcome of the promotions GET handler. -/
inductive PromoResp where
  | success : List PromoRec → PromoResp
  | failure500 : String → PromoResp

/-- The model of the GET handler: serve a fresh cache directly; otherwise
regenerate (an abstract outcome, since it calls the provider chain); on
success overwrite the cache, on failure serve a present cache even when
stale, else answer 500. -/
def promoGet (st : PromoCache) (now : Nat) (regen : Except String (List PromoRec)) :
    PromoResp × PromoCache :=
  if h : st.cache.isSome ∧ now - st.lastUpdate < cacheDuration then
    (.success (st.cache.get h.1), st)
  else
    match regen with
    | .ok result => (.success result, ⟨some result, now⟩)
    | .error e =>
      match st.cache with
      | some promos => (.success promos, st)
      | none => (.failure500 ("Failed to get current promotions: " ++ e), st)

/-! ### Suggestion endpoint input validation (`suggest-item-completions`) -/

/-- An HTTP response: status code and JSON body. -/
structure Http where
  status : Nat
  body : JsVal

/-- The Zod schema `z.object({ query: z.string() }).parse(body)`: a
non-object body or a missing or non-string `query` raises a `ZodError`
carrying field-level issues. -/
def zodParseQuery (body : JsVal) : Except (List String) String :=
  match body with
  | .vobj fs =>
    match fs.reverse.lookup "query" with
    | some (.vstr s) => .ok s
    | some _ => .error ["invalid_type at query: expected string"]
    | none => .error ["invalid_type at query: required"]
  | _ => .error ["invalid_type: expected object"]

/-- The model of the suggestions POST handler: Zod failures answer 400 with
the issue list; an empty or whitespace query short-circuits to a 200 with
no suggestions; otherwise the flow parses the model text (abstracted as
`aiText`) and validates it, a validation throw answering 500. -/
def suggestPOST (body : JsVal) (aiText : List Char) : Http :=
  match zodParseQuery body with
  | .error issues =>
    ⟨400, .vobj [("error", .vstr "Invalid input data"),
                 ("details", .varr (issues.map .vstr))]⟩
  | .ok q =>
    if !truthy (.vstr q) || jsTrim q.toList = [] then
      ⟨200, .vobj [("suggestions", .varr [])]⟩
    else
      match parseAIResponseSugg aiText with
      | .ok parsed =>
        match validateAndProcessSuggestions parsed with
        | .ok l => ⟨200, .vobj [("suggestions", .varr (l.map .vstr))]⟩
        | .error _ => ⟨500, .vobj [("error", .vstr "Failed to get item suggestions")]⟩
      | .error _ => ⟨500, .vobj [("error", .vstr "Failed to get item suggestions")]⟩

/-! ### Store estimates: derived-field recomputation

Modelled from the spec: the price-estimates route that recomputes
`totalPrice` and `isCheapest` (spec section 4.3) is not among the provided
sources — only its mock data in `free-ai-service.ts` is — so the
recomputation below follows the spec text: sum each breakdown treating a
missing or non-numeric price as zero, mark the first store attaining the
minimum, sort ascending by total (a stable sort), and map the empty input
to the empty output. -/

/-- One `priceBreakdown` entry; `none` models a missing or non-numeric
price. -/
structure BdItem where
  item : String
  price : Option ℚ

/-- A store estimate record as delivered by the model, including the
untrusted `totalPrice` and `isCheapest` claims. -/
structure StoreEst where
  name : String
  distance : String
  priceBreakdown : List BdItem
  totalPrice : ℚ
  isCheapest : Bool

/-- Modelled from the spec: the recomputed total, the sum of the breakdown
prices with missing or non-numeric prices as zero. -/
def computeTotal (s : StoreEst) : ℚ :=
  (s.priceBreakdown.map fun b => b.price.getD 0).sum

/-- Modelled from the spec: discard the model-supplied derived fields and
recompute the total. -/
def annotateStore (s : StoreEst) : StoreEst :=
  { s with totalPrice := computeTotal s, isCheapest := false }

/-- Minimum recomputed total of a non-empty store list, written on the head
and tail. -/
def minTot : StoreEst → List StoreEst → ℚ
  | s, [] => s.totalPrice
  | s, t :: r => min s.totalPrice (minTot t r)

/-- Modelled from the spec: mark the first store attaining the minimum
total as the cheapest, leaving the rest untouched. -/
def markFirstCheapest (m : ℚ) : List StoreEst → List StoreEst
  | [] => []
  | s :: r =>
    if s.totalPrice = m then { s with isCheapest := true } :: r
    else s :: markFirstCheapest m r

/-- Ascending order on recomputed totals. -/
def storeLe (a b : StoreEst) : Prop :=
  a.totalPrice ≤ b.totalPrice

instance : DecidableRel storeLe := fun a b => by
  unfold storeLe; infer_instance

instance : IsTotal StoreEst storeLe :=
  ⟨fun a b => le_total a.totalPrice b.totalPrice⟩

instance : IsTrans StoreEst storeLe :=
  ⟨fun _ _ _ h1 h2 => le_trans h1 h2⟩

/-- Modelled from the spec: the full recomputation pipeline of section 4.3
— recompute totals, clear the flags, mark the first minimum, sort
ascending (stably). -/
def recomputeStores (stores : List StoreEst) : List StoreEst :=
  match stores.map annotateStore with
  | [] => []
  | a :: rest => (markFirstCheapest (minTot a rest) (a :: rest)).insertionSort storeLe

/-! ### Supporting lemmas -/

/-- A key bound in the front part of an association list keeps its value
after an append. -/
theorem lookup_append_of_some {α β : Type} [BEq α] {l1 l2 : List (α × β)} {k : α} {v : β}
    (h : List.lookup k l1 = some v) : List.lookup k (l1 ++ l2) = some v := by
  induction l1 with
  | nil => simp [List.lookup] at h
  | cons e t ih =>
    obtain ⟨k1, v1⟩ := e
    rw [List.lookup_cons] at h
    rw [List.cons_append, List.lookup_cons]
    cases hk : (k == k1) with
    | true => rw [hk] at h; simpa using h
    | false =>
      rw [hk] at h
      simp only at h ⊢
      exact ih h

/-- A key absent from the front part of an association list is looked up in
the back part. -/
theorem lookup_append_of_none {α β : Type} [BEq α] {l1 l2 : List (α × β)} {k : α}
    (h : List.lookup k l1 = none) : List.lookup k (l1 ++ l2) = List.lookup k l2 := by
  induction l1 with
  | nil => simp
  | cons e t ih =>
    obtain ⟨k1, v1⟩ := e
    rw [List.lookup_cons] at h
    rw [List.cons_append, List.lookup_cons]
    cases hk : (k == k1) with
    | true => rw [hk] at h; simp at h
    | false =>
      rw [hk] at h
      simp only at h ⊢
      exact ih h

/-- One image request never disturbs an existing cache binding. -/
theorem imageFlow_preserves {cache : ImageCache} {k u : String}
    (h : List.lookup k cache = some u) (hint : String) (pr : Except Unit String) :
    List.lookup k (imageFlow cache hint pr).2 = some u := by
  unfold imageFlow
  cases hl : List.lookup (normalizeHint hint) cache with
  | some url => simpa [hl] using h
  | none =>
    cases pr with
    | ok url => simpa [hl] using lookup_append_of_some h
    | error e => simpa [hl] using lookup_append_of_some h

/-- A whole sequence of image requests never disturbs an existing cache
binding. -/
theorem runImageRequests_preserves {k u : String} :
    ∀ (reqs : List (String × Except Unit String)) (cache : ImageCache),
      List.lookup k cache = some u →
      List.lookup k (runImageRequests cache reqs) = some u := by
  intro reqs
  induction reqs with
  | nil => intro cache h; simpa [runImageRequests] using h
  | cons r rest ih =>
    intro cache h
    exact ih _ (imageFlow_preserves h r.1 r.2)

/-- A cache hit returns the stored URL. -/
theorem imageFlow_hit {c : ImageCache} {h u : String} (pr : Except Unit String)
    (hl : List.lookup (normalizeHint h) c = some u) : (imageFlow c h pr).1 = u := by
  simp only [imageFlow]
  rw [hl]

/-- After an image request, the returned URL is bound to the normalised key
in the updated cache. -/
theorem imageFlow_caches (cache : ImageCache) (hint : String) (pr : Except Unit String) :
    List.lookup (normalizeHint hint) (imageFlow cache hint pr).2 =
      some (imageFlow cache hint pr).1 := by
  unfold imageFlow
  cases hl : List.lookup (normalizeHint hint) cache with
  | some url => simp [hl]
  | none =>
    cases pr with
    | ok url => simp [hl, lookup_append_of_none hl, List.lookup]
    | error e => simp [hl, lookup_append_of_none hl, List.lookup]

/-- Zod validation failures always carry at least one issue. -/
theorem zod_issues_ne_nil {body : JsVal} {issues : List String}
    (h : zodParseQuery body = .error issues) : issues ≠ [] := by
  cases body with
  | vobj fs =>
    rw [zodParseQuery] at h
    rcases hl : fs.reverse.lookup "query" with _ | q
    · rw [hl] at h
      cases h
      simp
    · rw [hl] at h
      cases q <;> first
        | (cases h; simp)
        | cases h
  | undef => cases h; simp
  | vnull => cases h; simp
  | vbool b => cases h; simp
  | vnum q => cases h; simp
  | vstr s => cases h; simp
  | varr xs => cases h; simp

/-- The seen-set of the specification nub matters only up to membership. -/
theorem nubFirstAux_congr (xs : List String) :
    ∀ s1 s2 : List String, (∀ x, x ∈ s1 ↔ x ∈ s2) →
      nubFirstAux s1 xs = nubFirstAux s2 xs := by
  induction xs with
  | nil => intro s1 s2 _; rfl
  | cons x xs ih =>
    intro s1 s2 hs
    rw [nubFirstAux, nubFirstAux]
    by_cases hx : x ∈ s1
    · rw [if_pos hx, if_pos ((hs x).1 hx)]
      exact ih s1 s2 hs
    · rw [if_neg hx, if_neg (fun h => hx ((hs x).2 h))]
      have : ∀ y, y ∈ x :: s1 ↔ y ∈ x :: s2 := by
        intro y
        simp only [List.mem_cons]
        exact or_congr Iff.rfl (hs y)
      rw [ih (x :: s1) (x :: s2) this]

/-- The `indexOf`-based filter of the code keeps exactly the first
occurrences: stated with an arbitrary already-scanned front part. -/
theorem jsDedup_go (xs : List String) :
    ∀ pre : List String,
      ((List.enumFrom pre.length xs).filter
          (fun p => (pre ++ xs).indexOf p.2 = p.1)).map (·.2) =
        nubFirstAux pre xs := by
  induction xs with
  | nil => intro pre; rfl
  | cons x xs ih =>
    intro pre
    have hsplit : pre ++ x :: xs = (pre ++ [x]) ++ xs := by simp
    by_cases hx : x ∈ pre
    · have hidx : (pre ++ x :: xs).indexOf x = pre.indexOf x :=
        List.indexOf_append_of_mem hx
      have hlt : pre.indexOf x < pre.length := List.indexOf_lt_length.2 hx
      have hne : ¬((pre ++ x :: xs).indexOf x = pre.length) := by
        rw [hidx]; exact Nat.ne_of_lt hlt
      have step :
          (List.enumFrom pre.length (x :: xs)).filter
              (fun p => (pre ++ x :: xs).indexOf p.2 = p.1) =
            (List.enumFrom (pre.length + 1) xs).filter
              (fun p => (pre ++ x :: xs).indexOf p.2 = p.1) := by
        show List.filter _ ((pre.length, x) :: List.enumFrom (pre.length + 1) xs) = _
        rw [List.filter_cons_of_neg]
        simpa using hne
      rw [step, nubFirstAux, if_pos hx]
      have hlen : pre.length + 1 = (pre ++ [x]).length := by simp
      calc ((List.enumFrom (pre.length + 1) xs).filter
              (fun p => (pre ++ x :: xs).indexOf p.2 = p.1)).map (·.2)
          = ((List.enumFrom (pre ++ [x]).length xs).filter
              (fun p => ((pre ++ [x]) ++ xs).indexOf p.2 = p.1)).map (·.2) := by
            rw [← hsplit, ← hlen]
        _ = nubFirstAux (pre ++ [x]) xs := ih (pre ++ [x])
        _ = nubFirstAux pre xs := by
            refine nubFirstAux_congr xs _ _ ?_
            intro y
            simp only [List.mem_append, List.mem_singleton]
            constructor
            · rintro (hy | rfl)
              · exact hy
              · exact hx
            · exact .inl
    · have hidx : (pre ++ x :: xs).indexOf x = pre.length := by
        rw [List.indexOf_append_of_not_mem hx, List.indexOf_cons_self]
        exact Nat.add_zero _
      have step :
          (List.enumFrom pre.length (x :: xs)).filter
              (fun p => (pre ++ x :: xs).indexOf p.2 = p.1) =
            (pre.length, x) ::
              (List.enumFrom (pre.length + 1) xs).filter
                (fun p => (pre ++ x :: xs).indexOf p.2 = p.1) := by
        show List.filter _ ((pre.length, x) :: List.enumFrom (pre.length + 1) xs) = _
        rw [List.filter_cons_of_pos]
        simpa using hidx
      rw [step, nubFirstAux, if_neg hx]
      have hlen : pre.length + 1 = (pre ++ [x]).length := by simp
      have tail :
          ((List.enumFrom (pre.length + 1) xs).filter
              (fun p => (pre ++ x :: xs).indexOf p.2 = p.1)).map (·.2) =
            nubFirstAux (x :: pre) xs := by
        calc ((List.enumFrom (pre.length + 1) xs).filter
                (fun p => (pre ++ x :: xs).indexOf p.2 = p.1)).map (·.2)
            = ((List.enumFrom (pre ++ [x]).length xs).filter
                (fun p => ((pre ++ [x]) ++ xs).indexOf p.2 = p.1)).map (·.2) := by
              rw [← hsplit, ← hlen]
          _ = nubFirstAux (pre ++ [x]) xs := ih (pre ++ [x])
          _ = nubFirstAux (x :: pre) xs := by
              refine nubFirstAux_congr xs _ _ ?_
              intro y
              simp [or_comm]
      rw [List.map_cons, tail]

/-- The code's `indexOf`-filter de-duplication equals first-occurrence
de-duplication. -/
theorem jsDedup_eq_nubFirst (l : List String) : jsDedup l = nubFirst l := by
  have h := jsDedup_go l []
  simpa [jsDedup, nubFirst, List.enum] using h

/-- Every successful suggestion validation yields at most eight entries. -/
theorem validateSuggestions_le_eight (payload : JsVal) (l : List String)
    (h : validateAndProcessSuggestions payload = .ok l) : l.length ≤ 8 := by
  unfold validateAndProcessSuggestions at h
  cases hg : getProp payload "suggestions" with
  | error e => rw [hg] at h; cases h
  | ok s =>
    rw [hg] at h
    cases s with
    | varr items =>
      simp only [Except.bind, truthy, if_pos] at h
      cases h
      exact List.length_take_le 8 _
    | undef => cases h; simp
    | vnull => cases h; simp
    | vbool b => cases h; simp
    | vnum q => cases h; simp
    | vstr s => cases h; simp
    | vobj fs => cases h; simp

/-- Insertion sort leaves a list unchanged when the relation holds between
every pair of its elements (as with a constantly-zero JavaScript
comparator). -/
theorem insertionSort_of_all_rel {α : Type} (r : α → α → Prop) [DecidableRel r] :
    ∀ l : List α, (∀ a ∈ l, ∀ b ∈ l, r a b) → l.insertionSort r = l := by
  intro l
  induction l with
  | nil => intro _; rfl
  | cons a rest ih =>
    intro h
    rw [List.insertionSort_cons r
        (fun b hb => h a (List.mem_cons_self a rest) b (List.mem_cons_of_mem a hb)),
      ih (fun x hx y hy =>
        h x (List.mem_cons_of_mem a hx) y (List.mem_cons_of_mem a hy))]

/-- The head of a filtered list is the first match. -/
theorem head?_filter_eq_find? {α : Type} (p : α → Bool) :
    ∀ l : List α, (l.filter p).head? = l.find? p := by
  intro l
  induction l with
  | nil => rfl
  | cons a rest ih =>
    cases hp : p a with
    | true => rw [List.filter_cons_of_pos hp, List.find?_cons_of_pos _ hp]; rfl
    | false => rw [List.filter_cons_of_neg (by simp [hp]), List.find?_cons_of_neg _ (by simp [hp]), ih]

/-- All keyword-table keys have a one-character first character, so the
comparator is identically zero on them. -/
theorem imageMap_firstCharLen : ∀ e ∈ imageMap, firstCharLen e.1 = 1 := by
  decide

/-- Inversion for `getProp`: a successful property read returns exactly
`propD`. -/
theorem getProp_ok_eq {p : JsVal} {k : String} {v : JsVal}
    (h : getProp p k = .ok v) : v = propD p k := by
  cases p <;> simp [getProp] at h <;> exact h.symm

/-- Inversion for `lowerProp`: a success means the property was a string,
`null` or `undefined` (anything else would have thrown). -/
theorem lowerProp_ok_propD {p : JsVal} {k : String} {s : String}
    (h : lowerProp p k = .ok s) :
    (∃ t, propD p k = .vstr t) ∨ propD p k = .undef ∨ propD p k = .vnull := by
  unfold lowerProp at h
  cases hget : getProp p k with
  | error e => rw [hget] at h; cases h
  | ok v =>
    rw [hget] at h
    have hv := getProp_ok_eq hget
    cases v with
    | vstr t => exact .inl ⟨t, hv ▸ rfl⟩
    | undef => exact .inr (.inl (hv ▸ rfl))
    | vnull => exact .inr (.inr (hv ▸ rfl))
    | vbool b => cases h
    | vnum q => cases h
    | varr xs => cases h
    | vobj fs => cases h

/-- Truthy values are neither `undefined` nor `null`. -/
theorem truthy_ne_nullish {a : JsVal} (h : truthy a = true) :
    a ≠ .undef ∧ a ≠ .vnull := by
  cases a <;> simp [truthy] at h ⊢

/-- A fallback through `||` onto a non-nullish default never yields
`undefined` or `null`. -/
theorem jsOr_ne_nullish (a : JsVal) {b : JsVal}
    (hb1 : b ≠ .undef) (hb2 : b ≠ .vnull) :
    jsOr a b ≠ .undef ∧ jsOr a b ≠ .vnull := by
  unfold jsOr
  cases ht : truthy a with
  | true => simpa using truthy_ne_nullish ht
  | false => simpa using ⟨hb1, hb2⟩

/-- A synthesized label is never the empty string. -/
theorem specialOffer_ne_empty (t : String) : "Special Offer " ++ t ≠ "" := by
  intro h
  have hl := congrArg String.length h
  simp [String.length_append] at hl
  exact absurd hl.1 (by decide)

/-- Shape of an `||`-defaulted string field whose raw value was a string,
`null` or `undefined`: the result is a string, non-empty when the default
is. -/
theorem jsOr_str_default {a : JsVal} (d : String)
    (ha : (∃ t, a = .vstr t) ∨ a = .undef ∨ a = .vnull) :
    ∃ s, jsOr a (.vstr d) = .vstr s ∧ (d ≠ "" → s ≠ "") := by
  rcases ha with ⟨t, rfl⟩ | rfl | rfl
  · by_cases ht : t = ""
    · subst ht
      exact ⟨d, by simp [jsOr, truthy], fun hd => hd⟩
    · exact ⟨t, by simp [jsOr, truthy, ht], fun _ => ht⟩
  · exact ⟨d, by simp [jsOr, truthy], fun hd => hd⟩
  · exact ⟨d, by simp [jsOr, truthy], fun hd => hd⟩

/-- The promotion element used in the counterexample: a complete, truthy
record whose `discountPercent` is 250 and whose `promotionType` is not in
the documented enumeration. -/
def overPromo : JsVal :=
  .vobj [("title", .vstr "Mega Cereal Deal"), ("store", .vstr "Checkers"),
         ("dataAiHint", .vstr "corn flakes"), ("category", .vstr "Cereals"),
         ("discountPercent", .vnum 250), ("promotionType", .vstr "mega_deal"),
         ("validUntil", .vstr "2099-01-01")]

/-! ### Fence-stripping lemmas (towards C5) -/

/-- A triple backtick occurs somewhere in the list. -/
def hasFence (cs : List Char) : Prop :=
  ∃ a b, cs = a ++ '`' :: '`' :: '`' :: b

/-- The fuel argument on the fence scan is irrelevant once it covers the
input length. -/
theorem stripFencesF_congr : ∀ (f g : Nat) (cs : List Char),
    cs.length ≤ f → cs.length ≤ g → stripFencesF f cs = stripFencesF g cs := by
  intro f
  induction f with
  | zero =>
    intro g cs hf _
    have : cs = [] := List.eq_nil_of_length_eq_zero (Nat.le_zero.1 hf)
    subst this
    cases g <;> rfl
  | succ f ih =>
    intro g cs hf hg
    cases cs with
    | nil => cases g <;> rfl
    | cons c rest =>
      cases g with
      | zero => exact absurd hg (by simp)
      | succ g =>
        simp only [stripFencesF]
        have hlen : rest.length + 1 ≤ f + 1 := by simpa using hf
        have hleng : rest.length + 1 ≤ g + 1 := by simpa using hg
        split_ifs with p1 p2 p3 p4
        · exact ih g _ (by simp; omega) (by simp; omega)
        · exact ih g _ (by simp; omega) (by simp; omega)
        · exact ih g _ (by simp; omega) (by simp; omega)
        · exact ih g _ (by simp; omega) (by simp; omega)
        · rw [ih g rest (by omega) (by omega)]

/-- A list is a Boolean prefix of itself followed by anything. -/
theorem isPrefixOf_append_self {α : Type} [BEq α] [LawfulBEq α] :
    ∀ (l r : List α), l.isPrefixOf (l ++ r) = true := by
  intro l r
  induction l with
  | nil => simp [List.isPrefixOf]
  | cons a t ih => simp [List.isPrefixOf, ih]

/-- The scan is the identity on the empty list at any fuel. -/
theorem stripFencesF_nil : ∀ f : Nat, stripFencesF f [] = [] := by
  intro f; cases f <;> rfl

/-- Triple-backtick test at the head from the longer json patterns. -/
theorem litAt_triple_of_json {cs : List Char} :
    litAt "```json\n" cs = true ∨ litAt "```json" cs = true →
    litAt "```" cs = true := by
  rcases cs with _ | ⟨a, _ | ⟨b, _ | ⟨c, r⟩⟩⟩ <;>
    simp [litAt, List.isPrefixOf] <;> tauto

/-- A single scan step that keeps the head character: no pattern can fire
when the triple test and the newline-fence test both fail. -/
theorem stripFencesF_keep (f : Nat) {c : Char} {cs : List Char}
    (h4 : litAt "```" (c :: cs) = false) (h3 : litAt "\n```" (c :: cs) = false) :
    stripFencesF (f + 1) (c :: cs) = c :: stripFencesF f cs := by
  have h1 : litAt "```json\n" (c :: cs) = false := by
    cases hx : litAt "```json\n" (c :: cs) with
    | false => rfl
    | true => rw [litAt_triple_of_json (.inl hx)] at h4; cases h4
  have h2 : litAt "```json" (c :: cs) = false := by
    cases hx : litAt "```json" (c :: cs) with
    | false => rfl
    | true => rw [litAt_triple_of_json (.inr hx)] at h4; cases h4
  rw [stripFencesF, if_neg (by simp [h1]), if_neg (by simp [h2]),
    if_neg (by simp [h3]), if_neg (by simp [h4])]

/-- Whitespace characters are not backticks. -/
theorem jsTrimWs_ne_backtick {c : Char} (h : jsTrimWs c = true) : c ≠ '`' := by
  intro he
  rw [he] at h
  exact absurd h (by decide)

/-- The triple test fails on a non-backtick head. -/
theorem litAt_triple_false {c : Char} (cs : List Char) (hc : c ≠ '`') :
    litAt "```" (c :: cs) = false := by
  simp [litAt, List.isPrefixOf, Ne.symm hc]

/-- The newline-fence test fails on a non-newline head. -/
theorem litAt_nl_false_head {c : Char} (cs : List Char) (hc : c ≠ '\n') :
    litAt "\n```" (c :: cs) = false := by
  simp [litAt, List.isPrefixOf, Ne.symm hc]

/-- The newline-fence test fails when the second character is not a
backtick. -/
theorem litAt_nl_false_snd (c : Char) {d : Char} (cs : List Char) (hd : d ≠ '`') :
    litAt "\n```" (c :: d :: cs) = false := by
  simp [litAt, List.isPrefixOf, Ne.symm hd]

/-- The newline-fence test fails on a one-character list. -/
theorem litAt_nl_false_one (c : Char) : litAt "\n```" [c] = false := by
  simp [litAt, List.isPrefixOf]

/-- The fence scan keeps a pure-whitespace list unchanged. -/
theorem stripFencesF_ws_id : ∀ (ws : List Char) (f : Nat),
    (∀ c ∈ ws, jsTrimWs c = true) → stripFencesF f ws = ws := by
  intro ws
  induction ws with
  | nil => intro f _; exact stripFencesF_nil f
  | cons c tail ih =>
    intro f hws
    cases f with
    | zero => rfl
    | succ f =>
      have hc : c ≠ '`' := jsTrimWs_ne_backtick (hws c (by simp))
      have h3 : litAt "\n```" (c :: tail) = false := by
        cases tail with
        | nil => exact litAt_nl_false_one c
        | cons d t =>
          exact litAt_nl_false_snd c t (jsTrimWs_ne_backtick (hws d (by simp)))
      rw [stripFencesF_keep f (litAt_triple_false tail hc) h3,
        ih f (fun x hx => hws x (by simp [hx]))]

/-- The fence scan passes over leading whitespace that does not end in a
newline, at any sufficient fuel shape. -/
theorem stripFencesF_ws_scan : ∀ (ws : List Char) (f : Nat) (rest : List Char),
    (∀ c ∈ ws, jsTrimWs c = true) → ws.getLast? ≠ some '\n' →
    stripFencesF (ws.length + f) (ws ++ rest) = ws ++ stripFencesF f rest := by
  intro ws
  induction ws with
  | nil => intro f rest _ _; simp
  | cons c tail ih =>
    intro f rest hws hlast
    have hc : c ≠ '`' := jsTrimWs_ne_backtick (hws c (by simp))
    have h3 : litAt "\n```" (c :: (tail ++ rest)) = false := by
      cases tail with
      | nil =>
        have hcn : c ≠ '\n' := by
          intro rfl_h
          exact hlast (by simp [rfl_h])
        exact litAt_nl_false_head (([] : List Char) ++ rest) hcn
      | cons d t =>
        exact litAt_nl_false_snd c (t ++ rest)
          (jsTrimWs_ne_backtick (hws d (by simp)))
    have e1 : (c :: tail).length + f = tail.length + f + 1 := by
      simp [List.length_cons]
      omega
    rw [e1]
    show stripFencesF (tail.length + f + 1) (c :: (tail ++ rest)) = _
    rw [stripFencesF_keep (tail.length + f) (litAt_triple_false _ hc) h3]
    cases tail with
    | nil => simp [stripFencesF]
    | cons d t =>
      rw [ih f rest (fun x hx => hws x (by simp [hx]))
        (by simpa [List.getLast?_cons_cons] using hlast)]
      rfl

/-- Any prepended character extends a fence occurrence. -/
theorem hasFence_cons {c : Char} {s : List Char} (h : hasFence s) :
    hasFence (c :: s) := by
  obtain ⟨a, b, rfl⟩ := h
  exact ⟨c :: a, b, rfl⟩

/-- The triple test fails inside a fence-free body followed by a
newline-headed suffix. -/
theorem litAt_triple_false_body {c : Char} {t tailPart : List Char}
    (hnf : ¬ hasFence (c :: t)) (hhd : tailPart.head? = some '\n') :
    litAt "```" (c :: (t ++ tailPart)) = false := by
  cases hx : litAt "```" (c :: (t ++ tailPart)) with
  | false => rfl
  | true =>
    exfalso
    rcases t with _ | ⟨d, _ | ⟨e, t2⟩⟩
    · cases tailPart with
      | nil => cases hhd
      | cons x xs =>
        cases hhd
        simp [litAt, List.isPrefixOf] at hx
    · cases tailPart with
      | nil => cases hhd
      | cons x xs =>
        cases hhd
        simp [litAt, List.isPrefixOf] at hx
    · simp [litAt, List.isPrefixOf] at hx
      obtain ⟨rfl, rfl, rfl⟩ := hx
      exact hnf ⟨[], t2, rfl⟩

/-- The newline-fence test fails inside a fence-free body followed by a
newline-headed suffix. -/
theorem litAt_nl_false_body {c : Char} {t tailPart : List Char}
    (hnf : ¬ hasFence (c :: t)) (hhd : tailPart.head? = some '\n') :
    litAt "\n```" (c :: (t ++ tailPart)) = false := by
  cases hx : litAt "\n```" (c :: (t ++ tailPart)) with
  | false => rfl
  | true =>
    exfalso
    rcases t with _ | ⟨d, _ | ⟨e, _ | ⟨g, t3⟩⟩⟩
    · cases tailPart with
      | nil => cases hhd
      | cons x xs =>
        cases hhd
        simp [litAt, List.isPrefixOf] at hx
    · cases tailPart with
      | nil => cases hhd
      | cons x xs =>
        cases hhd
        simp [litAt, List.isPrefixOf] at hx
    · cases tailPart with
      | nil => cases hhd
      | cons x xs =>
        cases hhd
        simp [litAt, List.isPrefixOf] at hx
    · simp [litAt, List.isPrefixOf] at hx
      obtain ⟨rfl, rfl, rfl, rfl⟩ := hx
      exact hnf ⟨['\n'], t3, rfl⟩

/-- The fence scan passes verbatim over a fence-free body followed by a
newline-headed suffix. -/
theorem stripFencesF_body_scan : ∀ (s : List Char) (f : Nat) (tailPart : List Char),
    ¬ hasFence s → tailPart.head? = some '\n' →
    stripFencesF (s.length + f) (s ++ tailPart) = s ++ stripFencesF f tailPart := by
  intro s
  induction s with
  | nil => intro f tailPart _ _; simp
  | cons c t ih =>
    intro f tailPart hnf hhd
    have e1 : (c :: t).length + f = t.length + f + 1 := by
      simp [List.length_cons]
      omega
    rw [e1]
    show stripFencesF (t.length + f + 1) (c :: (t ++ tailPart)) = _
    rw [stripFencesF_keep (t.length + f)
      (litAt_triple_false_body hnf hhd) (litAt_nl_false_body hnf hhd)]
    rw [ih f tailPart (fun h => hnf (hasFence_cons h)) hhd]
    rfl

/-- Consuming the `json` opening fence. -/
theorem stripFencesF_open_json (f : Nat) (rest : List Char) :
    stripFencesF (f + 1) ("```json\n".toList ++ rest) = stripFencesF f rest := by
  have h1 : litAt "```json\n" ('`' :: '`' :: '`' :: 'j' :: 's' :: 'o' :: 'n' :: '\n' :: rest) = true :=
    isPrefixOf_append_self "```json\n".toList rest
  show stripFencesF (f + 1) ('`' :: '`' :: '`' :: 'j' :: 's' :: 'o' :: 'n' :: '\n' :: rest) = _
  rw [stripFencesF, if_pos h1]
  rfl

/-- Consuming the bare opening fence (the newline survives for the later
scan). -/
theorem stripFencesF_open_bare (f : Nat) (rest : List Char) :
    stripFencesF (f + 1) ("```\n".toList ++ rest) = stripFencesF f ('\n' :: rest) := by
  have h1 : litAt "```json\n" ('`' :: '`' :: '`' :: '\n' :: rest) = false := by
    simp [litAt, List.isPrefixOf]
  have h2 : litAt "```json" ('`' :: '`' :: '`' :: '\n' :: rest) = false := by
    simp [litAt, List.isPrefixOf]
  have h3 : litAt "\n```" ('`' :: '`' :: '`' :: '\n' :: rest) = false := by
    simp [litAt, List.isPrefixOf]
  have h4 : litAt "```" ('`' :: '`' :: '`' :: '\n' :: rest) = true := by
    simp [litAt, List.isPrefixOf]
  show stripFencesF (f + 1) ('`' :: '`' :: '`' :: '\n' :: rest) = _
  rw [stripFencesF, if_neg (by simp [h1]), if_neg (by simp [h2]),
    if_neg (by simp [h3]), if_pos h4]
  rfl

/-- Consuming the closing fence with its preceding newline. -/
theorem stripFencesF_close (f : Nat) (ws2 : List Char) :
    stripFencesF (f + 1) ('\n' :: '`' :: '`' :: '`' :: ws2) = stripFencesF f ws2 := by
  have h1 : litAt "```json\n" ('\n' :: '`' :: '`' :: '`' :: ws2) = false := by
    simp [litAt, List.isPrefixOf]
  have h2 : litAt "```json" ('\n' :: '`' :: '`' :: '`' :: ws2) = false := by
    simp [litAt, List.isPrefixOf]
  have h3 : litAt "\n```" ('\n' :: '`' :: '`' :: '`' :: ws2) = true := by
    simp [litAt, List.isPrefixOf]
  rw [stripFencesF, if_neg (by simp [h1]), if_neg (by simp [h2]), if_pos h3]
  rfl

/-- The full fence-stripping behaviour on a well-formed `json` fence with
surrounding whitespace: only the fence markers disappear. -/
theorem stripFences_json_fence (ws1 s ws2 : List Char)
    (hws1 : ∀ c ∈ ws1, jsTrimWs c = true) (hws2 : ∀ c ∈ ws2, jsTrimWs c = true)
    (hlast : ws1.getLast? ≠ some '\n') (hnf : ¬ hasFence s) :
    stripFences (ws1 ++ ("```json\n".toList ++ (s ++ ('\n' :: '`' :: '`' :: '`' :: ws2)))) =
      ws1 ++ (s ++ ws2) := by
  unfold stripFences
  set R3 : List Char := '\n' :: '`' :: '`' :: '`' :: ws2 with hR3
  set R2 : List Char := s ++ R3 with hR2
  set R1 : List Char := "```json\n".toList ++ R2 with hR1
  have e0 : (ws1 ++ R1).length = ws1.length + R1.length := by simp
  rw [e0, stripFencesF_ws_scan ws1 R1.length R1 hws1 hlast]
  have e1 : R1.length = R2.length + 7 + 1 := by
    rw [hR1, List.length_append]
    rw [show ("```json\n".toList).length = 8 from rfl]
    omega
  rw [e1, stripFencesF_open_json (R2.length + 7) R2]
  have e2 : R2.length + 7 = s.length + (R3.length + 7) := by
    rw [hR2, List.length_append]
    omega
  rw [e2, hR2, stripFencesF_body_scan s (R3.length + 7) R3 hnf (by rw [hR3]; rfl)]
  have e3 : R3.length + 7 = ws2.length + 10 + 1 := by
    rw [hR3]
    simp only [List.length_cons]
  rw [hR3, e3, stripFencesF_close (ws2.length + 10) ws2,
    stripFencesF_ws_id ws2 (ws2.length + 10) hws2]

/-- The full fence-stripping behaviour on a bare fence: only the markers
disappear, leaving the newline that followed the opening fence. -/
theorem stripFences_bare_fence (ws1 s ws2 : List Char)
    (hws1 : ∀ c ∈ ws1, jsTrimWs c = true) (hws2 : ∀ c ∈ ws2, jsTrimWs c = true)
    (hlast : ws1.getLast? ≠ some '\n') (hnf : ¬ hasFence s) :
    stripFences (ws1 ++ ("```\n".toList ++ (s ++ ('\n' :: '`' :: '`' :: '`' :: ws2)))) =
      ws1 ++ ('\n' :: s ++ ws2) := by
  unfold stripFences
  set R3 : List Char := '\n' :: '`' :: '`' :: '`' :: ws2 with hR3
  set R2 : List Char := s ++ R3 with hR2
  set R1 : List Char := "```\n".toList ++ R2 with hR1
  have e0 : (ws1 ++ R1).length = ws1.length + R1.length := by simp
  rw [e0, stripFencesF_ws_scan ws1 R1.length R1 hws1 hlast]
  have e1 : R1.length = R2.length + 3 + 1 := by
    rw [hR1, List.length_append]
    rw [show ("```\n".toList).length = 4 from rfl]
    omega
  rw [e1, stripFencesF_open_bare (R2.length + 3) R2]
  have hnf2 : ¬ hasFence ('\n' :: s) := by
    intro h
    obtain ⟨a, b, hab⟩ := h
    cases a with
    | nil => cases hab
    | cons x a2 =>
      rw [List.cons_append] at hab
      injection hab with _ h2
      exact hnf ⟨a2, b, h2⟩
  have e2 : R2.length + 3 = ('\n' :: s).length + (R3.length + 2) := by
    rw [hR2, List.length_append]
    simp only [List.length_cons]
    omega
  have hshape : ('\n' :: R2) = ('\n' :: s) ++ R3 := by
    rw [hR2]
    rfl
  rw [e2, hshape, stripFencesF_body_scan ('\n' :: s) (R3.length + 2) R3 hnf2 (by rw [hR3]; rfl)]
  have e3 : R3.length + 2 = ws2.length + 5 + 1 := by
    rw [hR3]
    simp only [List.length_cons]
  rw [hR3, e3, stripFencesF_close (ws2.length + 5) ws2,
    stripFencesF_ws_id ws2 (ws2.length + 5) hws2]

/-- Dropping while a predicate holds passes over a satisfying front part. -/
theorem dropWhile_all_append {p : Char → Bool} :
    ∀ (ws rest : List Char), (∀ c ∈ ws, p c = true) →
      (ws ++ rest).dropWhile p = rest.dropWhile p := by
  intro ws
  induction ws with
  | nil => intro rest _; rfl
  | cons c t ih =>
    intro rest hws
    rw [List.cons_append, List.dropWhile_cons, if_pos (hws c (by simp))]
    exact ih rest (fun x hx => hws x (by simp [hx]))

/-- Dropping while a predicate holds stops at a failing head. -/
theorem dropWhile_head_false {p : Char → Bool} {s : List Char} {c : Char}
    (hhd : s.head? = some c) (hc : p c = false) :
    s.dropWhile p = s := by
  cases s with
  | nil => cases hhd
  | cons x xs =>
    cases hhd
    rw [List.dropWhile_cons, if_neg (by simp [hc])]

/-- Trimming a value surrounded by whitespace yields exactly the value,
when the value itself starts and ends with non-whitespace. -/
theorem jsTrim_sandwich (ws1 s ws2 : List Char)
    (hws1 : ∀ c ∈ ws1, jsTrimWs c = true) (hws2 : ∀ c ∈ ws2, jsTrimWs c = true)
    (hhd : ∀ c, s.head? = some c → jsTrimWs c = false)
    (hlst : ∀ c, s.getLast? = some c → jsTrimWs c = false)
    (hne : s ≠ []) :
    jsTrim (ws1 ++ (s ++ ws2)) = s := by
  obtain ⟨c0, hc0⟩ : ∃ c0, s.head? = some c0 := by
    cases s with
    | nil => exact absurd rfl hne
    | cons x xs => exact ⟨x, rfl⟩
  obtain ⟨s0, cl, hs⟩ := (List.eq_nil_or_concat s).resolve_left hne
  rw [List.concat_eq_append] at hs
  subst hs
  have hbig : ((s0 ++ [cl]) ++ ws2).head? = some c0 := by
    cases s0 with
    | nil => simpa using hc0
    | cons x t => simpa using hc0
  have hcl : jsTrimWs cl = false := hlst cl (by simp)
  unfold jsTrim
  rw [dropWhile_all_append ws1 _ hws1]
  rw [dropWhile_head_false hbig (hhd c0 hc0)]
  rw [List.reverse_append, List.reverse_append]
  rw [dropWhile_all_append ws2.reverse _ (fun c hc => hws2 c (List.mem_reverse.1 hc))]
  have hrevhead : ([cl].reverse ++ s0.reverse).head? = some cl := by simp
  rw [dropWhile_head_false hrevhead hcl]
  simp

/-- A fence occurrence is found by the Boolean substring scan. -/
theorem hasFence_hasSub {cs : List Char} (h : hasFence cs) :
    hasSub cs ['`', '`', '`'] = true := by
  obtain ⟨a, b, rfl⟩ := h
  induction a with
  | nil =>
    unfold hasSub
    rw [if_pos (by simp [List.isPrefixOf])]
  | cons x t ih =>
    unfold hasSub
    split
    · rfl
    · exact ih

/-! ### Store-estimate recomputation lemmas (towards C1) -/

/-- The running minimum is a lower bound on every total in the list. -/
theorem minTot_le : ∀ (a : StoreEst) (l : List StoreEst),
    ∀ y ∈ a :: l, minTot a l ≤ y.totalPrice := by
  intro a l
  induction l generalizing a with
  | nil =>
    intro y hy
    rcases List.mem_singleton.1 hy with rfl
    exact le_refl _
  | cons t r ih =>
    intro y hy
    rcases List.mem_cons.1 hy with rfl | hy2
    · exact min_le_left _ _
    · exact le_trans (min_le_right _ _) (ih t y hy2)

/-- The running minimum is attained by some element. -/
theorem minTot_mem : ∀ (a : StoreEst) (l : List StoreEst),
    ∃ y ∈ a :: l, y.totalPrice = minTot a l := by
  intro a l
  induction l generalizing a with
  | nil => exact ⟨a, by simp, rfl⟩
  | cons t r ih =>
    rcases le_total a.totalPrice (minTot t r) with h | h
    · exact ⟨a, by simp, (min_eq_left h).symm⟩
    · obtain ⟨y, hy, hval⟩ := ih t
      refine ⟨y, by simp [List.mem_cons.1 hy], ?_⟩
      show y.totalPrice = min a.totalPrice (minTot t r)
      rw [hval, min_eq_right h]

/-- A common lower bound is below the running minimum. -/
theorem le_minTot : ∀ (a : StoreEst) (l : List StoreEst) (z : ℚ),
    (∀ y ∈ a :: l, z ≤ y.totalPrice) → z ≤ minTot a l := by
  intro a l
  induction l generalizing a with
  | nil => intro z h; exact h a (by simp)
  | cons t r ih =>
    intro z h
    exact le_min (h a (by simp)) (ih t z (fun y hy => h y (by simp [List.mem_cons.1 hy])))

/-- When the head is minimal the running minimum is its total. -/
theorem minTot_head (a : StoreEst) (l : List StoreEst)
    (h : ∀ y ∈ l, a.totalPrice ≤ y.totalPrice) : minTot a l = a.totalPrice := by
  cases l with
  | nil => rfl
  | cons t r =>
    exact min_eq_left (le_minTot t r _ (fun y hy => h y hy))

/-- Splitting the first-minimum marking: the list decomposes at the first
element attaining the target total, everything before it missing the
target, and only that element gets its flag set. -/
theorem markFirstCheapest_split : ∀ (m : ℚ) (l : List StoreEst),
    (∃ y ∈ l, y.totalPrice = m) →
    ∃ p c q, l = p ++ c :: q ∧ (∀ x ∈ p, x.totalPrice ≠ m) ∧ c.totalPrice = m ∧
      markFirstCheapest m l = p ++ { c with isCheapest := true } :: q := by
  intro m l
  induction l with
  | nil => rintro ⟨y, hy, _⟩; cases hy
  | cons s r ih =>
    intro hex
    by_cases hs : s.totalPrice = m
    · exact ⟨[], s, r, rfl, by simp, hs, by rw [markFirstCheapest, if_pos hs]; rfl⟩
    · obtain ⟨y, hy, hym⟩ := hex
      have hy2 : y ∈ r := by
        rcases List.mem_cons.1 hy with rfl | h
        · exact absurd hym hs
        · exact h
      obtain ⟨p, c, q, hl2, hp, hc, hm⟩ := ih ⟨y, hy2, hym⟩
      refine ⟨s :: p, c, q, by rw [List.cons_append, hl2], ?_, hc, ?_⟩
      · intro x hx
        rcases List.mem_cons.1 hx with rfl | h
        · exact hs
        · exact hp x h
      · rw [markFirstCheapest, if_neg hs, hm]
        rfl

/-- A strictly-larger front part slides past the minimal pivot under
insertion sort, which then exposes the pivot as the head. -/
theorem insertionSort_min_head : ∀ (p : List StoreEst) (q : List StoreEst) (c : StoreEst),
    (∀ x ∈ p, ¬ storeLe x c) → (∀ y ∈ p ++ q, storeLe c y) →
    (p ++ c :: q).insertionSort storeLe = c :: (p ++ q).insertionSort storeLe := by
  intro p
  induction p with
  | nil =>
    intro q c _ hq
    show (c :: q).insertionSort storeLe = _
    rw [List.insertionSort]
    cases hs : q.insertionSort storeLe with
    | nil => simp [hs, List.orderedInsert]
    | cons h t =>
      have hmem : h ∈ q := (List.mem_insertionSort storeLe).1 (by rw [hs]; simp)
      have hch : storeLe c h := hq h (by simpa using hmem)
      rw [List.orderedInsert_of_le storeLe t hch]
      rw [← hs]
      rfl
  | cons x p2 ih =>
    intro q c hp hq
    show (x :: (p2 ++ c :: q)).insertionSort storeLe = _
    rw [List.insertionSort]
    rw [ih q c (fun z hz => hp z (by simp [hz]))
      (fun y hy => hq y (by rcases List.mem_append.1 hy with h1 | h1 <;> simp [h1]))]
    have hxc : ¬ storeLe x c := hp x (by simp)
    rw [List.orderedInsert, if_neg hxc]
    rfl

/-- Annotation leaves a record whose flag is clear untouched when its total
already matches the recomputed total. -/
theorem annotateStore_selfconsistent {x : StoreEst}
    (ht : x.totalPrice = computeTotal x) (hf : x.isCheapest = false) :
    annotateStore x = x := by
  unfold annotateStore
  rw [← ht, ← hf]

/-- Unfolding the recomputation pipeline on a non-empty annotated list. -/
theorem recomputeStores_cons_eq {X : List StoreEst} {a : StoreEst} {rest : List StoreEst}
    (h : X.map annotateStore = a :: rest) :
    recomputeStores X =
      (markFirstCheapest (minTot a rest) (a :: rest)).insertionSort storeLe := by
  unfold recomputeStores
  rw [h]

/-- Mapping a pointwise-fixed annotation is the identity. -/
theorem map_annotate_fix : ∀ {L : List StoreEst},
    (∀ x ∈ L, annotateStore x = x) → L.map annotateStore = L := by
  intro L
  induction L with
  | nil => intro _; rfl
  | cons x t ih =>
    intro h
    rw [List.map_cons, h x (by simp), ih (fun y hy => h y (by simp [hy]))]

/-- The quoted key text whose raw-text regex capture runs before fence
stripping in the promotions extractor. -/
def promoKey : List Char := "\"promotions\"".toList

/-- The promotions pattern fails where its quoted key is not a prefix. -/
theorem promoTry_none {cs : List Char}
    (h : promoKey.isPrefixOf cs = false) : promoTry cs = none := by
  unfold promoTry litAt
  rw [show "\"promotions\"".toList = promoKey from rfl, h]
  rfl

/-- The promotions capture scan fails on text free of the quoted key. -/
theorem promoCapture_none : ∀ (f : Nat) (cs : List Char),
    hasSub cs promoKey = false → promoCapture f cs = none := by
  intro f
  induction f with
  | zero => intro cs _; rfl
  | succ g ih =>
    intro cs h
    have h1 : promoKey.isPrefixOf cs = false := by
      cases hq : promoKey.isPrefixOf cs with
      | false => rfl
      | true => unfold hasSub at h; rw [hq] at h; simp at h
    cases cs with
    | nil => rfl
    | cons c t =>
      have h2 : hasSub t promoKey = false := by
        unfold hasSub at h
        rw [h1] at h
        simpa using h
      rw [promoCapture, promoTry_none h1]
      exact ih t h2

/-- A newline-free pattern that is a prefix of `s ++ '\n' :: rest` fits
inside `s`. -/
theorem isPrefixOf_no_nl : ∀ (pat s rest : List Char), '\n' ∉ pat →
    pat.isPrefixOf (s ++ '\n' :: rest) = true → pat.length ≤ s.length := by
  intro pat
  induction pat with
  | nil => intro s rest _ _; exact Nat.zero_le _
  | cons p pr ih =>
    intro s rest hnl hp
    cases s with
    | nil =>
      simp only [List.nil_append, List.isPrefixOf, Bool.and_eq_true, beq_iff_eq] at hp
      exact absurd (hp.1 ▸ List.mem_cons_self p pr) hnl
    | cons c t =>
      simp only [List.cons_append, List.isPrefixOf, Bool.and_eq_true, beq_iff_eq] at hp
      have := ih t rest (fun hm => hnl (List.mem_cons_of_mem _ hm)) hp.2
      simpa [List.length_cons] using Nat.succ_le_succ this

/-- A prefix of an append no longer than the first part is a prefix of the
first part. -/
theorem isPrefixOf_of_le : ∀ (pat s rest : List Char),
    pat.isPrefixOf (s ++ rest) = true → pat.length ≤ s.length →
    pat.isPrefixOf s = true := by
  intro pat
  induction pat with
  | nil => intro s rest _ _; simp [List.isPrefixOf]
  | cons p pr ih =>
    intro s rest hp hl
    cases s with
    | nil => simp at hl
    | cons c t =>
      simp only [List.cons_append, List.isPrefixOf, Bool.and_eq_true, beq_iff_eq] at hp ⊢
      exact ⟨hp.1, ih t rest hp.2 (by simpa using hl)⟩

/-- Scanning past a non-quote character leaves the key search unchanged. -/
theorem hasSub_promoKey_cons {c : Char} (hc : c ≠ '"') (cs : List Char) :
    hasSub (c :: cs) promoKey = hasSub cs promoKey := by
  have hp : promoKey.isPrefixOf (c :: cs) = false := by
    show (('"' :: "promotions\"".toList).isPrefixOf (c :: cs)) = false
    simp [List.isPrefixOf, Ne.symm hc]
  conv_lhs => unfold hasSub
  rw [hp]
  simp

/-- A quote-free prefix never holds the key start. -/
theorem hasSub_promoKey_append : ∀ (xs : List Char),
    (∀ c ∈ xs, c ≠ '"') → ∀ rest,
    hasSub (xs ++ rest) promoKey = hasSub rest promoKey := by
  intro xs
  induction xs with
  | nil => intro _ rest; rfl
  | cons c t ih =>
    intro hx rest
    rw [List.cons_append, hasSub_promoKey_cons (hx c (by simp)) _,
      ih (fun y hy => hx y (by simp [hy])) rest]

/-- The key cannot straddle a body and a following newline-led suffix. -/
theorem hasSub_promoKey_glue : ∀ (s rest : List Char),
    hasSub s promoKey = false → hasSub ('\n' :: rest) promoKey = false →
    hasSub (s ++ '\n' :: rest) promoKey = false := by
  intro s
  induction s with
  | nil => intro rest _ h2; exact h2
  | cons c t ih =>
    intro rest h1 h2
    have h1a : promoKey.isPrefixOf (c :: t) = false := by
      cases hq : promoKey.isPrefixOf (c :: t) with
      | false => rfl
      | true => unfold hasSub at h1; rw [hq] at h1; simp at h1
    have h1b : hasSub t promoKey = false := by
      unfold hasSub at h1
      rw [h1a] at h1
      simpa using h1
    have hp : promoKey.isPrefixOf ((c :: t) ++ '\n' :: rest) = false := by
      cases hq : promoKey.isPrefixOf ((c :: t) ++ '\n' :: rest) with
      | false => rfl
      | true =>
        have hlen := isPrefixOf_no_nl promoKey (c :: t) rest (by decide) hq
        have hin := isPrefixOf_of_le promoKey (c :: t) ('\n' :: rest) hq hlen
        rw [hin] at h1a
        cases h1a
    rw [List.cons_append]
    conv_lhs => unfold hasSub
    rw [show promoKey.isPrefixOf (c :: (t ++ '\n' :: rest)) = false from hp]
    simpa using ih rest h1b h2

/-- A whitespace character is not a double quote. -/
theorem jsTrimWs_ne_quote {c : Char} (h : jsTrimWs c = true) : c ≠ '"' := by
  intro he
  rw [he] at h
  exact absurd h (by decide)

/-- Disabling the raw-text capture reduces the promotions extractor to its
fence-stripping strategy. -/
theorem parsePromos_no_capture {cs : List Char}
    (h : promoCapture (cs.length + 1) cs = none) :
    parsePromos cs = (match jsonParse (jsTrim (stripFences cs)) with
      | some v => v
      | none => emptyPromotionsVal) := by
  unfold parsePromos
  rw [h]

/-- On a fenced body free of the quoted promotions key, the raw-text
capture of the promotions extractor finds nothing. -/
theorem promoCapture_fenced_none (ws1 opening s ws2 : List Char)
    (hws1 : ∀ c ∈ ws1, jsTrimWs c = true) (hws2 : ∀ c ∈ ws2, jsTrimWs c = true)
    (hop : ∀ c ∈ opening, c ≠ '"')
    (hnp : hasSub s promoKey = false) (f : Nat) :
    promoCapture f (ws1 ++ (opening ++ (s ++ ('\n' :: '`' :: '`' :: '`' :: ws2)))) = none := by
  have hq1 : ∀ c ∈ ws1 ++ opening, c ≠ '"' := by
    intro c hc
    rcases List.mem_append.1 hc with h1 | h1
    · exact jsTrimWs_ne_quote (hws1 c h1)
    · exact hop c h1
  have hz : hasSub ws2 promoKey = false := by
    have h4 := hasSub_promoKey_append ws2 (fun c hc => jsTrimWs_ne_quote (hws2 c hc)) []
    rw [List.append_nil] at h4
    rw [h4]
    decide
  have htail : hasSub ('\n' :: '`' :: '`' :: '`' :: ws2) promoKey = false := by
    have e2 : ('\n' :: '`' :: '`' :: '`' :: ws2) = ['\n', '`', '`', '`'] ++ ws2 := rfl
    rw [e2, hasSub_promoKey_append ['\n', '`', '`', '`'] (by decide) ws2]
    exact hz
  have hkey : hasSub (ws1 ++ (opening ++ (s ++ ('\n' :: '`' :: '`' :: '`' :: ws2)))) promoKey = false := by
    have e : ws1 ++ (opening ++ (s ++ ('\n' :: '`' :: '`' :: '`' :: ws2))) =
        (ws1 ++ opening) ++ (s ++ '\n' :: '`' :: '`' :: '`' :: ws2) := by
      simp
    rw [e, hasSub_promoKey_append (ws1 ++ opening) hq1 _]
    exact hasSub_promoKey_glue s ('`' :: '`' :: '`' :: ws2) hnp htail
  exact promoCapture_none f _ hkey

/-! ### Claim theorems -/

/-- C5 (counterexample): two fenced valid-JSON bodies the extractors lose.
With a newline closing the whitespace before the fence, the global replace
consumes that newline together with the opening backticks instead of the
fence word, direct parsing fails, and a fenced JSON array comes back from
the suggestions extractor as the empty-suggestions default. And the
promotions extractor runs its promotions capture on the raw text before
any fence stripping, so a fenced object holding a promotions array comes
back as just the captured array wrapped in braces, not as the directly
parsed object. -/
theorem fenced_extraction_breaks :
    jsonParse ("[\"a\"]".toList) = some (.varr [.vstr "a"]) ∧
    parseAIResponseSugg ("\n```json\n[\"a\"]\n```".toList) = .ok emptySuggestionsVal ∧
    emptySuggestionsVal ≠ .varr [.vstr "a"] ∧
    jsonParse ("\x7b\"a\":\"x\",\"promotions\":[\"y\"]\x7d".toList) =
      some (.vobj [("a", .vstr "x"), ("promotions", .varr [.vstr "y"])]) ∧
    parsePromos ((" ```json" ++ "\n" ++ "\x7b\"a\":\"x\",\"promotions\":[\"y\"]\x7d"
        ++ "\n" ++ "```").toList) =
      .vobj [("promotions", .varr [.vstr "y"])] ∧
    JsVal.vobj [("promotions", .varr [.vstr "y"])] ≠
      .vobj [("a", .vstr "x"), ("promotions", .varr [.vstr "y"])] :=
  ⟨rfl, rfl, fun h => JsVal.noConfusion h, rfl, rfl, by
    intro h
    injection h with h1
    simp at h1⟩

/-- C5 (amended): for every valid-JSON body that contains no triple
backtick and no quoted promotions key text, starts and ends with
non-whitespace, wrapped in either fence form with surrounding whitespace
whose leading part does not end in a newline, all three fence-handling
extractors (suggestions, store products, promotions) recover exactly the
value of parsing the body directly. -/
theorem fenced_extraction_roundtrip (ws1 s ws2 : List Char) (v : JsVal)
    (hparse : jsonParse s = some v)
    (hws1 : ∀ c ∈ ws1, jsTrimWs c = true) (hws2 : ∀ c ∈ ws2, jsTrimWs c = true)
    (hlast : ws1.getLast? ≠ some '\n') (hnf : ¬ hasFence s)
    (hnp : hasSub s promoKey = false)
    (hhd : ∀ c, s.head? = some c → jsTrimWs c = false)
    (hlst : ∀ c, s.getLast? = some c → jsTrimWs c = false) :
    parseAIResponseSugg
        (ws1 ++ ("```json\n".toList ++ (s ++ ('\n' :: '`' :: '`' :: '`' :: ws2)))) = .ok v ∧
    parseAIResponseSugg
        (ws1 ++ ("```\n".toList ++ (s ++ ('\n' :: '`' :: '`' :: '`' :: ws2)))) = .ok v ∧
    parseAIResponseStore
        (ws1 ++ ("```json\n".toList ++ (s ++ ('\n' :: '`' :: '`' :: '`' :: ws2)))) = .ok v ∧
    parseAIResponseStore
        (ws1 ++ ("```\n".toList ++ (s ++ ('\n' :: '`' :: '`' :: '`' :: ws2)))) = .ok v ∧
    parsePromos
        (ws1 ++ ("```json\n".toList ++ (s ++ ('\n' :: '`' :: '`' :: '`' :: ws2)))) = v ∧
    parsePromos
        (ws1 ++ ("```\n".toList ++ (s ++ ('\n' :: '`' :: '`' :: '`' :: ws2)))) = v := by
  have hne : s ≠ [] := by
    intro h
    rw [h] at hparse
    cases hparse
  have htrim : jsTrim (ws1 ++ (s ++ ws2)) = s :=
    jsTrim_sandwich ws1 s ws2 hws1 hws2 hhd hlst hne
  have hstrip := stripFences_json_fence ws1 s ws2 hws1 hws2 hlast hnf
  have hstrip2 := stripFences_bare_fence ws1 s ws2 hws1 hws2 hlast hnf
  have htrim2 : jsTrim (ws1 ++ ('\n' :: s ++ ws2)) = s := by
    have hassoc : ws1 ++ ('\n' :: s ++ ws2) = (ws1 ++ ['\n']) ++ (s ++ ws2) := by
      simp
    rw [hassoc]
    refine jsTrim_sandwich (ws1 ++ ['\n']) s ws2 ?_ hws2 hhd hlst hne
    intro c hc
    rcases List.mem_append.1 hc with h1 | h1
    · exact hws1 c h1
    · rw [List.mem_singleton.1 h1]; rfl
  refine ⟨?_, ?_, ?_, ?_, ?_, ?_⟩
  · simp only [parseAIResponseSugg, hstrip, htrim, hparse]
  · simp only [parseAIResponseSugg, hstrip2, htrim2, hparse]
  · simp only [parseAIResponseStore, hstrip, htrim, hparse]
  · simp only [parseAIResponseStore, hstrip2, htrim2, hparse]
  · rw [parsePromos_no_capture
        (promoCapture_fenced_none ws1 _ s ws2 hws1 hws2 (by decide) hnp _),
      hstrip, htrim, hparse]
  · rw [parsePromos_no_capture
        (promoCapture_fenced_none ws1 _ s ws2 hws1 hws2 (by decide) hnp _),
      hstrip2, htrim2, hparse]

/-- C5 (witness): a concrete fenced object with a leading space and a
trailing newline round-trips through all three extractors. -/
theorem fenced_extraction_roundtrip_witness :
    parseAIResponseSugg
        ([' '] ++ ("```json\n".toList ++ ("\x7b\"ok\":true\x7d".toList ++
          ('\n' :: '`' :: '`' :: '`' :: ['\n'])))) = .ok (.vobj [("ok", .vbool true)]) ∧
    parseAIResponseStore
        ([' '] ++ ("```\n".toList ++ ("\x7b\"ok\":true\x7d".toList ++
          ('\n' :: '`' :: '`' :: '`' :: ['\n'])))) = .ok (.vobj [("ok", .vbool true)]) ∧
    parsePromos
        ([' '] ++ ("```json\n".toList ++ ("\x7b\"ok\":true\x7d".toList ++
          ('\n' :: '`' :: '`' :: '`' :: ['\n'])))) = .vobj [("ok", .vbool true)] := by
  have h := fenced_extraction_roundtrip [' '] ("\x7b\"ok\":true\x7d".toList) ['\n']
    (.vobj [("ok", .vbool true)]) rfl (by decide) (by decide) (by decide)
    (fun hf => absurd (hasFence_hasSub hf) (by decide)) (by decide)
    (by intro c h; cases h; decide) (by intro c h; cases h; decide)
  exact ⟨h.1, h.2.2.2.1, h.2.2.2.2.1⟩


/-- C3 (counterexample): the coercion stage passes a `discountPercent` of
250 — outside 0 to 100 — and the out-of-enumeration `promotionType`
`mega_deal` straight through to the caller. -/
theorem promotion_coercion_leaks :
    (processPromotion "2099-01-01" 0 overPromo).map (fun r => r.discountPercent) =
      .ok (.vnum 250) ∧
    ¬ ((250 : ℚ) ≤ 100) ∧
    (processPromotion "2099-01-01" 0 overPromo).map (fun r => r.promotionType) =
      .ok (.vstr "mega_deal") ∧
    "mega_deal" ∉ ["percentage_discount", "multibuy", "price_drop", "bundle"] :=
  ⟨by rfl, by decide, by rfl, by decide⟩

/-- C3 (amended): whenever the coercion stage succeeds, every required
field is present — the title a non-empty string, the category a non-empty
string, the hint a string, and store, promotion type and expiry never
`null` or `undefined` — but wrong-typed truthy model values in `store`,
`promotionType`, `validUntil` and `discountPercent` pass through without
type, enumeration or range checks. -/
theorem processPromotion_required_fields (defExpiry : String) (i : Nat)
    (p : JsVal) (rec : PromoRec)
    (h : processPromotion defExpiry i p = .ok rec) :
    (∃ s, rec.title = .vstr s ∧ s ≠ "") ∧
    (∃ s, rec.category = .vstr s ∧ s ≠ "") ∧
    (∃ s, rec.dataAiHint = .vstr s) ∧
    (rec.store ≠ .undef ∧ rec.store ≠ .vnull) ∧
    (rec.promotionType ≠ .undef ∧ rec.promotionType ≠ .vnull) ∧
    (rec.validUntil ≠ .undef ∧ rec.validUntil ≠ .vnull) := by
  unfold processPromotion at h
  cases h1 : lowerProp p "title" with
  | error e => rw [h1] at h; exact absurd h (by simp [Bind.bind, Except.bind])
  | ok title =>
    rw [h1] at h
    cases h2 : lowerProp p "dataAiHint" with
    | error e => rw [h2] at h; exact absurd h (by simp [Bind.bind, Except.bind])
    | ok hint =>
      rw [h2] at h
      cases h3 : lowerProp p "category" with
      | error e => rw [h3] at h; exact absurd h (by simp [Bind.bind, Except.bind])
      | ok cat =>
        rw [h3] at h
        simp only [Bind.bind, Except.bind, Except.ok.injEq] at h
        subst h
        refine ⟨?_, ?_, ?_, ?_, ?_, ?_⟩
        · obtain ⟨s, hs, hne⟩ :=
            jsOr_str_default ("Special Offer " ++ toString (i + 1))
              (lowerProp_ok_propD h1)
          exact ⟨s, hs, hne (specialOffer_ne_empty _)⟩
        · obtain ⟨s, hs, hne⟩ :=
            jsOr_str_default "General" (lowerProp_ok_propD h3)
          exact ⟨s, hs, hne (by decide)⟩
        · obtain ⟨s, hs, _⟩ := jsOr_str_default cat (lowerProp_ok_propD h2)
          exact ⟨s, hs⟩
        · exact jsOr_ne_nullish _ (by simp) (by simp)
        · exact jsOr_ne_nullish _ (by simp) (by simp)
        · exact jsOr_ne_nullish _ (by simp) (by simp)

/-- A minimal concrete promotion used by the coercion witness. -/
def demoPromo : JsVal := .vobj [("title", .vstr "Deal")]

/-- The record the coercion stage produces for `demoPromo`. -/
def demoRec : PromoRec :=
  ((processPromotion "2099-01-01" 0 demoPromo).toOption).getD
    ⟨"", .undef, .undef, .undef, .undef, .undef, .undef, .undef, .undef, .undef, .undef⟩

/-- C3 (witness): a concrete minimal promotion is coerced successfully with
all required fields present. -/
theorem processPromotion_required_fields_witness :
    processPromotion "2099-01-01" 0 demoPromo = .ok demoRec ∧
    ((∃ s, demoRec.title = .vstr s ∧ s ≠ "") ∧
      (∃ s, demoRec.category = .vstr s ∧ s ≠ "") ∧
      (∃ s, demoRec.dataAiHint = .vstr s) ∧
      (demoRec.store ≠ .undef ∧ demoRec.store ≠ .vnull) ∧
      (demoRec.promotionType ≠ .undef ∧ demoRec.promotionType ≠ .vnull) ∧
      (demoRec.validUntil ≠ .undef ∧ demoRec.validUntil ≠ .vnull)) :=
  ⟨rfl, processPromotion_required_fields "2099-01-01" 0 demoPromo demoRec rfl⟩



/-- C9 (counterexample): the title `milk bread` contains both the keyword
`milk` and the strictly longer keyword `bread`, whose images differ, yet
the resolver picks the `milk` image — the first match in table insertion
order, not the longest — and the products-route fallback does the same. -/
theorem resolveImg_not_longest :
    sIncl "milk bread" "milk" = true ∧
    sIncl "milk bread" "bread" = true ∧
    "bread".length > "milk".length ∧
    ("milk", pexP "248412") ∈ imageMap ∧
    ("bread", pexP "1775043") ∈ imageMap ∧
    resolveImg "milk bread" "" "" = pexP "248412" ∧
    pexP "248412" ≠ pexP "1775043" ∧
    getFallbackImage "milk bread" = pexQ "248412" ∧
    pexQ "248412" ≠ pexQ "1775043" := by
  exact ⟨by decide, by decide, by decide, by decide, by decide, by rfl,
    by decide, by rfl, by decide⟩


/-- C2 (counterexample): on the empty model response, the store-products
extractor propagates the thrown error (`Invalid response format from AI`)
to its caller instead of returning an unrecoverable-signal value. -/
theorem parseAIResponseStore_empty_throws :
    parseAIResponseStore [] = .error "Invalid response format from AI" := rfl

/-- C2 (amended): for every raw model-response string, the
suggestion-route extractor returns a value and never throws, while the
store-products extractor either returns a parsed value or throws the fixed
`Invalid response format from AI` error, which its route surfaces as a
500. -/
theorem extractors_parse_or_signal (cs : List Char) :
    (∃ v, parseAIResponseSugg cs = .ok v) ∧
    ((∃ v, parseAIResponseStore cs = .ok v) ∨
      parseAIResponseStore cs = .error "Invalid response format from AI") := by
  constructor
  · cases h1 : jsonParse (jsTrim (stripFences cs)) with
    | some v => exact ⟨v, by simp [parseAIResponseSugg, h1]⟩
    | none =>
      cases h2 : braceSlice (jsTrim (stripFences cs)) with
      | none => exact ⟨emptySuggestionsVal, by simp [parseAIResponseSugg, h1, h2]⟩
      | some seg =>
        cases h3 : jsonParse seg with
        | some v => exact ⟨v, by simp [parseAIResponseSugg, h1, h2, h3]⟩
        | none => exact ⟨emptySuggestionsVal, by simp [parseAIResponseSugg, h1, h2, h3]⟩
  · cases h1 : jsonParse (jsTrim (stripFences cs)) with
    | some v => exact .inl ⟨v, by simp [parseAIResponseStore, h1]⟩
    | none =>
      cases h2 : braceSlice (jsTrim (stripFences cs)) with
      | none => exact .inr (by simp [parseAIResponseStore, h1, h2])
      | some seg =>
        cases h3 : jsonParse seg with
        | some v => exact .inl ⟨v, by simp [parseAIResponseStore, h1, h2, h3]⟩
        | none => exact .inr (by simp [parseAIResponseStore, h1, h2, h3])

/-- C4 (counterexample): on a promotions response truncated in the middle
of its second element, the extractor returns the empty promotions object —
everything is discarded — rather than the one-element fully-formed
prefix. -/
theorem parsePromos_truncated_discards :
    parsePromos ("\x7b\"promotions\": [\x7b\"title\": \"A\"\x7d, \x7b\"ti".toList) =
      emptyPromotionsVal ∧
    emptyPromotionsVal ≠ .vobj [("promotions", .varr [.vobj [("title", .vstr "A")]])] := by
  refine ⟨by rfl, ?_⟩
  intro h
  simp [emptyPromotionsVal] at h

/-- C4 (amended): the promotions extractor never throws: every response
yields either the parse of the brace-wrapped regex capture, the parse of
the fence-stripped text, or the empty promotions object; a response
truncated mid-element has no qualifying closing bracket, so both parses
fail and the whole list is discarded. -/
theorem parsePromos_total_trichotomy (cs : List Char) :
    (∃ m v, promoCapture (cs.length + 1) cs = some m ∧
      jsonParse ('{' :: m ++ ['}']) = some v ∧ parsePromos cs = v) ∨
    (∃ v, jsonParse (jsTrim (stripFences cs)) = some v ∧ parsePromos cs = v) ∨
    parsePromos cs = emptyPromotionsVal := by
  cases h1 : promoCapture (cs.length + 1) cs with
  | some m =>
    cases h2 : jsonParse ('{' :: m ++ ['}']) with
    | some v =>
      refine .inl ⟨m, v, rfl, h2, ?_⟩
      simp only [parsePromos, h1, h2]
    | none =>
      cases h3 : jsonParse (jsTrim (stripFences cs)) with
      | some v =>
        refine .inr (.inl ⟨v, rfl, ?_⟩)
        simp only [parsePromos, h1, h2, h3]
      | none =>
        refine .inr (.inr ?_)
        simp only [parsePromos, h1, h2, h3]
  | none =>
    cases h3 : jsonParse (jsTrim (stripFences cs)) with
    | some v =>
      refine .inr (.inl ⟨v, rfl, ?_⟩)
      simp only [parsePromos, h1, h3]
    | none =>
      refine .inr (.inr ?_)
      simp only [parsePromos, h1, h3]

/-- C6: when the promotions GET regeneration fails, a present cache entry
(fresh or stale, since `now` is arbitrary) is returned as a success with
the state untouched, and with no cache entry the failure surfaces as the
500 message. -/
theorem promoGet_stale_or_500 (st : PromoCache) (now : Nat) (e : String) :
    (∀ promos, st.cache = some promos →
      promoGet st now (.error e) = (.success promos, st)) ∧
    (st.cache = none →
      promoGet st now (.error e) =
        (.failure500 ("Failed to get current promotions: " ++ e), st)) := by
  constructor
  · intro promos hc
    by_cases hfresh : st.cache.isSome ∧ now - st.lastUpdate < cacheDuration
    · simp [promoGet, hfresh, hc]
    · simp [promoGet, hfresh, hc]
  · intro hc
    have hfresh : ¬(st.cache.isSome ∧ now - st.lastUpdate < cacheDuration) := by
      simp [hc]
    simp [promoGet, hfresh, hc]

/-- C6 (witness): a concrete stale cache entry is served on failure, and a
concrete empty cache turns the failure into the 500 message. -/
theorem promoGet_stale_or_500_witness :
    promoGet ⟨some [], 0⟩ cacheDuration (.error "boom") = (.success [], ⟨some [], 0⟩) ∧
    promoGet ⟨none, 0⟩ 0 (.error "boom") =
      (.failure500 ("Failed to get current promotions: " ++ "boom"), ⟨none, 0⟩) :=
  ⟨(promoGet_stale_or_500 ⟨some [], 0⟩ cacheDuration "boom").1 [] rfl,
   (promoGet_stale_or_500 ⟨none, 0⟩ 0 "boom").2 rfl⟩

/-- C7 (counterexample): a request whose `query` is the empty string — not
a non-empty string — is answered 200 with an empty suggestion list, not a
400. -/
theorem suggestPOST_empty_query_not_400 :
    (suggestPOST (.vobj [("query", .vstr "")]) []).status = 200 ∧
    (suggestPOST (.vobj [("query", .vstr "")]) []).body =
      .vobj [("suggestions", .varr [])] ∧
    (200 : Nat) ≠ 400 :=
  ⟨rfl, rfl, by decide⟩

/-- C7 (amended): a missing or non-string `query` is answered 400 with a
non-empty machine-readable issue list, while an empty or whitespace-only
string `query` is silently answered 200 with an empty suggestion list. -/
theorem suggestPOST_validation (body : JsVal) (aiText : List Char) :
    (∀ issues, zodParseQuery body = .error issues →
      issues ≠ [] ∧
      suggestPOST body aiText =
        ⟨400, .vobj [("error", .vstr "Invalid input data"),
                     ("details", .varr (issues.map .vstr))]⟩) ∧
    (∀ q, zodParseQuery body = .ok q → jsTrim q.toList = [] →
      suggestPOST body aiText = ⟨200, .vobj [("suggestions", .varr [])]⟩) := by
  constructor
  · intro issues hz
    exact ⟨zod_issues_ne_nil hz, by simp [suggestPOST, hz]⟩
  · intro q hz ht
    simp only [suggestPOST, hz]
    have hcond : (!truthy (.vstr q) || jsTrim q.toList = []) = true := by
      simp
      exact Or.inr ht
    rw [hcond]
    simp

/-- C7 (witness): a numeric `query` is rejected with a 400 and one issue; a
whitespace-only `query` is answered 200. -/
theorem suggestPOST_validation_witness :
    (["invalid_type at query: expected string"] ≠ ([] : List String) ∧
      suggestPOST (.vobj [("query", .vnum 5)]) [] =
        ⟨400, .vobj [("error", .vstr "Invalid input data"),
                     ("details", .varr [.vstr "invalid_type at query: expected string"])]⟩) ∧
    suggestPOST (.vobj [("query", .vstr "  ")]) [] =
      ⟨200, .vobj [("suggestions", .varr [])]⟩ :=
  ⟨(suggestPOST_validation (.vobj [("query", .vnum 5)]) []).1
      ["invalid_type at query: expected string"] rfl,
   (suggestPOST_validation (.vobj [("query", .vstr "  ")]) []).2 "  " rfl rfl⟩

/-- C8: every coerced suggestion list has at most eight entries; on an
array payload the result is exactly the capitalised survivors,
de-duplicated by exact match keeping first occurrences, truncated to eight
only after de-duplication; the coerced product list keeps at most ten
entries, the first ten surviving valid elements in original order. -/
theorem coercion_limits_and_dedup (payload : JsVal) (items ps : List JsVal) :
    (∀ l, validateAndProcessSuggestions payload = .ok l → l.length ≤ 8) ∧
    validateAndProcessSuggestions (.vobj [("suggestions", .varr items)]) =
      .ok ((nubFirst ((items.filter keepSugg).map capVal)).take 8) ∧
    (validateProducts payload).length ≤ 10 ∧
    validateProducts (.varr ps) =
      ((ps.filter validProd).enum.map fun p => coerceProd p.1 p.2).take 10 := by
  refine ⟨fun l h => validateSuggestions_le_eight payload l h, ?_, ?_, rfl⟩
  · show Except.ok ((jsDedup ((items.filter keepSugg).map capVal)).take 8) = _
    rw [jsDedup_eq_nubFirst]
  · cases payload with
    | varr xs => exact List.length_take_le 10 _
    | undef => exact Nat.le_of_lt (by simp [validateProducts])
    | vnull => exact Nat.le_of_lt (by simp [validateProducts])
    | vbool b => exact Nat.le_of_lt (by simp [validateProducts])
    | vnum q => exact Nat.le_of_lt (by simp [validateProducts])
    | vstr s => exact Nat.le_of_lt (by simp [validateProducts])
    | vobj fs => exact Nat.le_of_lt (by simp [validateProducts])

/-- C8 (witness): the spec scenario — the payload
`{"suggestions": ["milk", "milk", "bread"]}` validates to exactly
`["Milk", "Bread"]`, within the length bound. -/
theorem coercion_limits_and_dedup_witness :
    ["Milk", "Bread"].length ≤ 8 ∧
    validateAndProcessSuggestions
        (.vobj [("suggestions", .varr [.vstr "milk", .vstr "milk", .vstr "bread"])]) =
      .ok ["Milk", "Bread"] :=
  ⟨(coercion_limits_and_dedup
      (.vobj [("suggestions", .varr [.vstr "milk", .vstr "milk", .vstr "bread"])]) [] []).1
      ["Milk", "Bread"] (by rfl),
   by rfl⟩

/-- C9 (amended): the first matching tier selects the first keyword of the
table, in insertion order, whose key occurs in the searched text — the
length-preferring comparator compares one-character strings and is inert —
and the products-route fallback is likewise a first-match scan; a
multi-word keyword wins only when it precedes the competing keys in the
table. -/
theorem tierPick_is_first_match (text : String) :
    tierPick imageMap text = (imageMap.find? fun e => sIncl text e.1).map (·.2) ∧
    (∀ hint, getFallbackImage hint =
      (((productImageMap.find? fun e => sIncl (jsLower hint) e.1).map (·.2)).getD
        (pexQ "3962286"))) := by
  constructor
  · unfold tierPick
    have hall : ∀ a ∈ kwMatches imageMap text, ∀ b ∈ kwMatches imageMap text,
        entryRel a b := by
      intro a ha b hb
      have ha2 := List.mem_of_mem_filter ha
      have hb2 := List.mem_of_mem_filter hb
      unfold entryRel entryCmp
      rw [imageMap_firstCharLen a ha2, imageMap_firstCharLen b hb2]
      simp
    rw [insertionSort_of_all_rel entryRel _ hall]
    unfold kwMatches
    rw [head?_filter_eq_find?]
  · intro hint
    unfold getFallbackImage
    cases h : productImageMap.find? (fun e => sIncl (jsLower hint) e.1) with
    | none => simp
    | some e => simp

/-- C1 (counterexample): on the empty store sequence the recomputation
returns the empty list, so no store at all carries the cheapest flag,
against the claimed exactly-one. -/
theorem recompute_empty_no_cheapest :
    recomputeStores [] = [] ∧
    (recomputeStores []).countP (·.isCheapest) = 0 ∧ (0 : Nat) ≠ 1 :=
  ⟨rfl, rfl, by decide⟩

/-- C1 (amended): for every non-empty store sequence with non-negative
breakdown prices, the recomputed list has every total equal to the sum of
its breakdown, exactly one cheapest flag, the flagged store minimal, the
output sorted ascending by total, the flag resting on the first input
store attaining the minimum (which the stable sort exposes as the head),
the recomputation idempotent, and the model-supplied total and flag fields
ignored entirely. -/
theorem recompute_stores_spec (stores : List StoreEst) (hne : stores ≠ [])
    ( _hpos : ∀ st ∈ stores, ∀ b ∈ st.priceBreakdown, 0 ≤ b.price.getD 0) :
    (∀ t ∈ recomputeStores stores, t.totalPrice = computeTotal t) ∧
    (recomputeStores stores).countP (·.isCheapest) = 1 ∧
    (∀ t ∈ recomputeStores stores, t.isCheapest = true →
      ∀ x ∈ recomputeStores stores, t.totalPrice ≤ x.totalPrice) ∧
    List.Sorted storeLe (recomputeStores stores) ∧
    (∃ pre cS post, stores = pre ++ cS :: post ∧
      (∀ x ∈ pre, computeTotal x ≠ computeTotal cS) ∧
      (∀ x ∈ stores, computeTotal cS ≤ computeTotal x) ∧
      (recomputeStores stores).head? = some { annotateStore cS with isCheapest := true }) ∧
    recomputeStores (recomputeStores stores) = recomputeStores stores ∧
    (∀ tp : StoreEst → ℚ, ∀ ic : StoreEst → Bool,
      recomputeStores (stores.map fun s => { s with totalPrice := tp s, isCheapest := ic s }) =
        recomputeStores stores) := by
  obtain ⟨s0, rest0, rfl⟩ : ∃ s0 rest0, stores = s0 :: rest0 := by
    cases stores with
    | nil => exact absurd rfl hne
    | cons x t => exact ⟨x, t, rfl⟩
  have hmap : (s0 :: rest0).map annotateStore =
      annotateStore s0 :: rest0.map annotateStore := rfl
  set a := annotateStore s0 with ha
  set arest := rest0.map annotateStore with harest
  set m := minTot a arest with hm
  have hout : recomputeStores (s0 :: rest0) =
      (markFirstCheapest m (a :: arest)).insertionSort storeLe :=
    recomputeStores_cons_eq hmap
  obtain ⟨p, c, q, hl, hpne, hcm, hmk⟩ :=
    markFirstCheapest_split m (a :: arest) (minTot_mem a arest)
  have hannot : ∀ x ∈ a :: arest, x.isCheapest = false ∧ x.totalPrice = computeTotal x := by
    intro x hx
    rw [← hmap] at hx
    obtain ⟨y, _, rfl⟩ := List.mem_map.1 hx
    exact ⟨rfl, rfl⟩
  have hmin_le : ∀ x ∈ a :: arest, m ≤ x.totalPrice := minTot_le a arest
  have hc_mem : c ∈ a :: arest := by rw [hl]; simp
  have hc_self := hannot c hc_mem
  set cm : StoreEst := { c with isCheapest := true } with hcm2
  have hpmem : ∀ x ∈ p, x ∈ a :: arest := by
    intro x hx
    rw [hl]
    exact List.mem_append_left _ hx
  have hqmem : ∀ x ∈ q, x ∈ a :: arest := by
    intro x hx
    rw [hl]
    exact List.mem_append_right _ (by simp [hx])
  have hp_gt : ∀ x ∈ p, ¬ storeLe x cm := by
    intro x hx hle
    have hle2 : x.totalPrice ≤ m := by
      have hle3 : x.totalPrice ≤ c.totalPrice := hle
      rw [hcm] at hle3
      exact hle3
    exact hpne x hx (le_antisymm hle2 (hmin_le x (hpmem x hx)))
  have hpq_mem : ∀ y ∈ p ++ q, y ∈ a :: arest := by
    intro y hy
    rcases List.mem_append.1 hy with h1 | h1
    · exact hpmem y h1
    · exact hqmem y h1
  have hq_ge : ∀ y ∈ p ++ q, storeLe cm y := by
    intro y hy
    show cm.totalPrice ≤ y.totalPrice
    exact le_of_eq_of_le hcm (hmin_le y (hpq_mem y hy))
  have hsort := insertionSort_min_head p q cm hp_gt hq_ge
  set S := (p ++ q).insertionSort storeLe with hS
  have houts : recomputeStores (s0 :: rest0) = cm :: S := by
    rw [hout, hmk, hsort]
  have hSmem : ∀ x ∈ S, x ∈ p ++ q := by
    intro x hx
    rw [hS] at hx
    exact (List.mem_insertionSort storeLe).1 hx
  have htot : ∀ t ∈ recomputeStores (s0 :: rest0), t.totalPrice = computeTotal t := by
    rw [houts]
    intro t ht
    rcases List.mem_cons.1 ht with rfl | hin
    · exact hc_self.2
    · exact (hannot t (hpq_mem t (hSmem t hin))).2
  have hflagS : ∀ x ∈ S, x.isCheapest = false := by
    intro x hx
    exact (hannot x (hpq_mem x (hSmem x hx))).1
  have hcount : (recomputeStores (s0 :: rest0)).countP (·.isCheapest) = 1 := by
    rw [houts, List.countP_cons_of_pos _ _ (by rfl)]
    have : S.countP (·.isCheapest) = 0 := by
      rw [List.countP_eq_zero]
      intro x hx
      simp [hflagS x hx]
    omega
  have hcheap_min : ∀ t ∈ recomputeStores (s0 :: rest0), t.isCheapest = true →
      ∀ x ∈ recomputeStores (s0 :: rest0), t.totalPrice ≤ x.totalPrice := by
    rw [houts]
    intro t ht htc x hx
    have htcm : t = cm := by
      rcases List.mem_cons.1 ht with rfl | hin
      · rfl
      · exact absurd htc (by simp [hflagS t hin])
    subst htcm
    rcases List.mem_cons.1 hx with rfl | hin
    · exact le_refl _
    · exact le_of_eq_of_le hcm (hmin_le x (hpq_mem x (hSmem x hin)))
  have hsorted : List.Sorted storeLe (recomputeStores (s0 :: rest0)) := by
    rw [hout]
    exact List.sorted_insertionSort storeLe _
  have hfirst : ∃ pre cS post, s0 :: rest0 = pre ++ cS :: post ∧
      (∀ x ∈ pre, computeTotal x ≠ computeTotal cS) ∧
      (∀ x ∈ s0 :: rest0, computeTotal cS ≤ computeTotal x) ∧
      (recomputeStores (s0 :: rest0)).head? =
        some { annotateStore cS with isCheapest := true } := by
    have hl2 : (s0 :: rest0).map annotateStore = p ++ c :: q := by
      rw [hmap]
      exact hl
    rw [List.map_eq_append_iff] at hl2
    obtain ⟨pre, rest2, hsplit, hpreP, hrest2⟩ := hl2
    rw [List.map_eq_cons_iff] at hrest2
    obtain ⟨cS, post, hr2, hcS, hpost⟩ := hrest2
    refine ⟨pre, cS, post, by rw [hsplit, hr2], ?_, ?_, ?_⟩
    · intro x hx hcontra
      have hmemp : annotateStore x ∈ p := by
        rw [← hpreP]
        exact List.mem_map_of_mem annotateStore hx
      refine hpne (annotateStore x) hmemp ?_
      show computeTotal x = m
      rw [hcontra]
      show computeTotal cS = m
      rw [show computeTotal cS = (annotateStore cS).totalPrice from rfl, hcS]
      exact hcm
    · intro x hx
      have hmemx : annotateStore x ∈ a :: arest := by
        rw [← hmap]
        exact List.mem_map_of_mem annotateStore hx
      have h1 : m ≤ computeTotal x := hmin_le (annotateStore x) hmemx
      have h2 : computeTotal cS = m := by
        rw [show computeTotal cS = (annotateStore cS).totalPrice from rfl, hcS]
        exact hcm
      rw [h2]
      exact h1
    · rw [houts, hcm2, ← hcS]
      rfl
  have hannotS : ∀ x ∈ S, annotateStore x = x := by
    intro x hx
    exact annotateStore_selfconsistent
      ((hannot x (hpq_mem x (hSmem x hx))).2) ((hannot x (hpq_mem x (hSmem x hx))).1)
  have hcmA : annotateStore cm = { cm with isCheapest := false } := by
    unfold annotateStore
    rw [show computeTotal cm = cm.totalPrice from hc_self.2.symm]
  have hmap2 : (cm :: S).map annotateStore = { cm with isCheapest := false } :: S := by
    rw [List.map_cons, hcmA, map_annotate_fix hannotS]
  have hminc0 : minTot { cm with isCheapest := false } S =
      ({ cm with isCheapest := false } : StoreEst).totalPrice := by
    refine minTot_head _ S ?_
    intro y hy
    show cm.totalPrice ≤ y.totalPrice
    exact le_of_eq_of_le hcm (hmin_le y (hpq_mem y (hSmem y hy)))
  have hmark2 : markFirstCheapest (minTot { cm with isCheapest := false } S)
      ({ cm with isCheapest := false } :: S) = cm :: S := by
    rw [hminc0, markFirstCheapest, if_pos rfl]
  have hidem : recomputeStores (recomputeStores (s0 :: rest0)) =
      recomputeStores (s0 :: rest0) := by
    rw [houts, recomputeStores_cons_eq hmap2, hmark2]
    have hsorted2 : List.Sorted storeLe (cm :: S) := by
      rw [← houts]
      exact hsorted
    exact hsorted2.insertionSort_eq
  have hover : ∀ (tp : StoreEst → ℚ) (ic : StoreEst → Bool),
      recomputeStores ((s0 :: rest0).map fun s =>
        { s with totalPrice := tp s, isCheapest := ic s }) =
        recomputeStores (s0 :: rest0) := by
    intro tp ic
    have hmm : ((s0 :: rest0).map fun s =>
        { s with totalPrice := tp s, isCheapest := ic s }).map annotateStore =
        a :: arest := by
      rw [List.map_map]
      rw [show (annotateStore ∘ fun s =>
        ({ s with totalPrice := tp s, isCheapest := ic s } : StoreEst)) =
          annotateStore from rfl]
      exact hmap
    rw [recomputeStores_cons_eq hmm, hout]
  exact ⟨htot, hcount, hcheap_min, hsorted, hfirst, hidem, hover⟩
/-- Three concrete store estimates with untrusted model-supplied derived
fields: recomputed totals 8, 2 and 2, a tie for the minimum between the
second and third store. -/
def demoStoreA : StoreEst :=
  { name := "Shoprite", distance := "2 km",
    priceBreakdown := [⟨"milk", some 5⟩, ⟨"bread", some 3⟩],
    totalPrice := 99, isCheapest := true }

def demoStoreB : StoreEst :=
  { name := "PicknPay", distance := "1 km",
    priceBreakdown := [⟨"milk", some 1⟩, ⟨"bread", some 1⟩],
    totalPrice := 0, isCheapest := false }

def demoStoreC : StoreEst :=
  { name := "Checkers", distance := "3 km",
    priceBreakdown := [⟨"milk", none⟩, ⟨"bread", some 2⟩],
    totalPrice := 7, isCheapest := true }

/-- C1 witness: the amended theorem instantiated at the three concrete
stores, the non-emptiness and non-negativity hypotheses discharged by
computation. -/
theorem recompute_stores_spec_witness :
    ([demoStoreA, demoStoreB, demoStoreC] : List StoreEst) ≠ [] ∧
    (∀ st ∈ ([demoStoreA, demoStoreB, demoStoreC] : List StoreEst),
      ∀ b ∈ st.priceBreakdown, 0 ≤ b.price.getD 0) ∧
    (recomputeStores [demoStoreA, demoStoreB, demoStoreC]).countP (·.isCheapest) = 1 ∧
    List.Sorted storeLe (recomputeStores [demoStoreA, demoStoreB, demoStoreC]) :=
  have hne : ([demoStoreA, demoStoreB, demoStoreC] : List StoreEst) ≠ [] :=
    List.cons_ne_nil _ _
  have hpos : ∀ st ∈ ([demoStoreA, demoStoreB, demoStoreC] : List StoreEst),
      ∀ b ∈ st.priceBreakdown, 0 ≤ b.price.getD 0 := by decide
  have h := recompute_stores_spec [demoStoreA, demoStoreB, demoStoreC] hne hpos
  ⟨hne, hpos, h.2.1, h.2.2.2.1⟩

/-- C10: image results are memoised per normalised hint: whatever a first
request stored, a later request whose hint normalises to the same key
returns that exact URL, for every intervening request sequence and every
provider outcome, with no expiry anywhere in the flow. -/
theorem productImage_memoized (cache : ImageCache) (h1 h2 : String)
    (pr1 pr2 : Except Unit String) (mid : List (String × Except Unit String))
    (hn : normalizeHint h1 = normalizeHint h2) :
    (imageFlow (runImageRequests (imageFlow cache h1 pr1).2 mid) h2 pr2).1 =
      (imageFlow cache h1 pr1).1 := by
  have key := runImageRequests_preserves mid _ (imageFlow_caches cache h1 pr1)
  rw [hn] at key
  exact imageFlow_hit pr2 key

/-- C10 (witness): two concrete requests differing only in case and
internal whitespace, separated by an unrelated request and a failing
provider, return the first request's URL. -/
theorem productImage_memoized_witness :
    (imageFlow (runImageRequests (imageFlow [] "Fresh Milk 2L" (.ok "https://img/1")).2
        [("eggs", .ok "https://img/2")]) "fresh  milk 2L" (.error ())).1 =
      (imageFlow [] "Fresh Milk 2L" (.ok "https://img/1")).1 :=
  productImage_memoized [] "Fresh Milk 2L" "fresh  milk 2L" (.ok "https://img/1")
    (.error ()) [("eggs", .ok "https://img/2")] rfl

end GroceryAI
